import Mathlib

/-!
Verification of the graph-IR optimization layer of `myia/optimize/graph.py`.

The Python code keeps one multigraph per `IRLambda`; edges are labeled with
roles (`FN`, `CL`, `COPY`, `IN(i)`, `ELEM(i)`, `GET(i)`), an edge
`x ==FN=> y` meaning "y is the function used to compute x", etc.
We embed the graph as a list of labeled edges `(dest, role, src)` in
insertion order, nodes being identified by their Python object identity
(modelled as an id of type `ν`).
-/

set_option linter.unusedSectionVars false

namespace Myia

/-- Edge labels, from the "Edge labels" section of `graph.py`. -/
inductive Role where
  | FN : Role
  | CL : Role
  | COPY : Role
  | IN : Nat → Role
  | ELEM : Nat → Role
  | GET : Nat → Role
deriving DecidableEq, Repr

/-- A labeled edge `x ==role=> y`, stored as `(x, role, y)`:
`y` helps produce `x`. -/
abbrev GEdge (ν : Type) := ν × Role × ν

/-- `IRGraph` (an `nx.MultiDiGraph`): the list of labeled edges in insertion
order.  `add_edge(u, v, key)` is a no-op when the exact keyed edge is already
present, which we mirror in `addEdge`. -/
structure MGraph (ν : Type) where
  edges : List (GEdge ν)
deriving DecidableEq, Repr

variable {ν : Type} [DecidableEq ν]

/-- Outgoing (producer) edges of a node: `self.edges(node, keys=True)`. -/
def MGraph.outEdges (g : MGraph ν) (n : ν) : List (GEdge ν) :=
  g.edges.filter (fun e => decide (e.1 = n))

/-- Incoming edges of a node: `self.in_edges(node, keys=True)`. -/
def MGraph.inEdges (g : MGraph ν) (n : ν) : List (GEdge ν) :=
  g.edges.filter (fun e => decide (e.2.2 = n))

/-- `IRGraph.clear_out`: remove every outgoing edge of `node`. -/
def MGraph.clearOut (g : MGraph ν) (n : ν) : MGraph ν :=
  ⟨g.edges.filter (fun e => decide (¬ e.1 = n))⟩

/-- `MultiDiGraph.add_edge(u, v, key)` — adding an already-present keyed edge
is a no-op. -/
def MGraph.addEdge (g : MGraph ν) (e : GEdge ν) : MGraph ν :=
  if e ∈ g.edges then g else ⟨g.edges ++ [e]⟩

/-- Helper of `installApply`: add the `IN(i)` edges for the argument list,
starting at index `i` (`for i, arg in enumerate(self.args)`). -/
def MGraph.addArgs (g : MGraph ν) (node : ν) (i : Nat) : List ν → MGraph ν
  | [] => g
  | a :: rest => (g.addEdge (node, Role.IN i, a)).addArgs node (i + 1) rest

/-- `ApplyOperation.install(graph, node)`: `graph.clear_out(node)` (from
`Operation.install`), then one `FN` edge to the function node and one `IN(i)`
edge per argument.  Every concrete operation of the source
(`ClosureOperation`, `TupleOperation`, `GetOperation`, `CopyOperation`)
is sugar producing an `ApplyOperation`, so this is the only installer. -/
def MGraph.installApply (g : MGraph ν) (node fn : ν) (args : List ν) : MGraph ν :=
  ((g.clearOut node).addEdge (node, Role.FN, fn)).addArgs node 0 args

/-- The five Operation role families of the spec:
`Apply`/`Closure` (a function edge plus positional inputs), `Tuple`
(`ELEM(i)` edges), `Get`, `Copy`. -/
inductive Fam where
  | app : Fam
  | clos : Fam
  | elem : Fam
  | get : Fam
  | copy : Fam
deriving DecidableEq, Repr, Fintype

/-- Which roles may appear on a node whose producer belongs to a family.
`IN(i)` edges accompany both `FN` (generic application) and `CL`
(closure). -/
def Role.fits : Role → Fam → Bool
  | Role.FN, Fam.app => true
  | Role.IN _, Fam.app => true
  | Role.CL, Fam.clos => true
  | Role.IN _, Fam.clos => true
  | Role.ELEM _, Fam.elem => true
  | Role.GET _, Fam.get => true
  | Role.COPY, Fam.copy => true
  | _, _ => false

/-- A node's outgoing edge set belongs to exactly one Operation role family,
or the node has no producer edges at all. -/
def familyOK (g : MGraph ν) (n : ν) : Prop :=
  g.outEdges n = [] ∨ ∃ f : Fam, ∀ e ∈ g.outEdges n, (e.2.1).fits f = true

/-- A finite sequence of `install(node, operation)` calls, each given by the
target node, the function node and the argument nodes of the installed
(desugared) `ApplyOperation`. -/
def applyInstalls (g : MGraph ν) (calls : List (ν × ν × List ν)) : MGraph ν :=
  calls.foldl (fun g c => g.installApply c.1 c.2.1 c.2.2) g

theorem mem_addEdge {g : MGraph ν} {e e' : GEdge ν}
    (h : e ∈ (g.addEdge e').edges) : e ∈ g.edges ∨ e = e' := by
  unfold MGraph.addEdge at h
  split at h
  · exact Or.inl h
  · rcases List.mem_append.1 h with h1 | h1
    · exact Or.inl h1
    · exact Or.inr (List.mem_singleton.1 h1)

theorem mem_addArgs {node : ν} {P : GEdge ν → Prop}
    (hP : ∀ j a, P (node, Role.IN j, a)) :
    ∀ (args : List ν) (i : Nat) (g : MGraph ν),
      (∀ e ∈ g.edges, P e) → ∀ e ∈ (g.addArgs node i args).edges, P e := by
  intro args
  induction args with
  | nil => intro i g hg e he; exact hg e he
  | cons a rest ih =>
      intro i g hg e he
      refine ih (i + 1) _ ?_ e he
      intro e' he'
      rcases mem_addEdge he' with h | h
      · exact hg e' h
      · subst h; exact hP i a

theorem installApply_edge_shape {g : MGraph ν} {node fn : ν} {args : List ν}
    {e : GEdge ν} (he : e ∈ (g.installApply node fn args).edges) :
    (e ∈ g.edges ∧ ¬ e.1 = node) ∨
    (e.1 = node ∧ (e.2.1 = Role.FN ∨ ∃ j, e.2.1 = Role.IN j)) := by
  unfold MGraph.installApply at he
  refine mem_addArgs (P := fun e =>
    (e ∈ g.edges ∧ ¬ e.1 = node) ∨
    (e.1 = node ∧ (e.2.1 = Role.FN ∨ ∃ j, e.2.1 = Role.IN j)))
    (fun j a => Or.inr ⟨rfl, Or.inr ⟨j, rfl⟩⟩) args 0 _ ?_ e he
  intro e' he'
  rcases mem_addEdge he' with h | h
  · refine Or.inl ?_
    unfold MGraph.clearOut at h
    simp only [List.mem_filter, decide_eq_true_eq] at h
    exact h
  · subst h; exact Or.inr ⟨rfl, Or.inl rfl⟩

theorem familyOK_installApply (g : MGraph ν) (node fn : ν) (args : List ν)
    (hg : ∀ n, familyOK g n) : ∀ n, familyOK (g.installApply node fn args) n := by
  intro n
  by_cases hn : n = node
  · subst hn
    refine Or.inr ⟨Fam.app, ?_⟩
    intro e he
    have he' := (List.mem_filter.1 he)
    have hmem := installApply_edge_shape (g := g) he'.1
    have h1 : e.1 = n := of_decide_eq_true he'.2
    rcases hmem with ⟨_, hne⟩ | ⟨_, hr⟩
    · exact absurd h1 hne
    · rcases hr with h | ⟨j, h⟩ <;> simp [h, Role.fits]
  · rcases hg n with h0 | ⟨f, hf⟩
    · -- n had no producer edges; install on another node adds none for n
      refine Or.inl ?_
      rw [List.eq_nil_iff_forall_not_mem] at h0 ⊢
      intro e he
      have he' := List.mem_filter.1 he
      have h1 : e.1 = n := of_decide_eq_true he'.2
      rcases installApply_edge_shape (g := g) he'.1 with ⟨hm, _⟩ | ⟨hnode, _⟩
      · exact h0 e (List.mem_filter.2 ⟨hm, he'.2⟩)
      · exact hn (h1.symm.trans hnode)
    · refine Or.inr ⟨f, ?_⟩
      intro e he
      have he' := List.mem_filter.1 he
      have h1 : e.1 = n := of_decide_eq_true he'.2
      rcases installApply_edge_shape (g := g) he'.1 with ⟨hm, _⟩ | ⟨hnode, _⟩
      · exact hf e (List.mem_filter.2 ⟨hm, he'.2⟩)
      · exact absurd (h1.symm.trans hnode) hn

/-- C2: after any finite sequence of `install(node, operation)` calls on a
graph all of whose nodes already satisfy the one-role-family invariant
(e.g. the empty graph of a fresh `IRLambda`), every node's outgoing edge set
still belongs to exactly one Operation role family (`FN` with `IN(i)`, `CL`
with `IN(i)`, `ELEM(i)`, `GET(i)`, or `COPY`), or the node has no producer
edges at all.  Since every operation of the source desugars to an
`ApplyOperation`, each install writes a single `FN`-with-`IN(i)` family. -/
theorem producer_uniqueness (calls : List (ν × ν × List ν)) (g : MGraph ν)
    (hg : ∀ n, familyOK g n) : ∀ n, familyOK (applyInstalls g calls) n := by
  induction calls generalizing g with
  | nil => exact hg
  | cons c rest ih =>
      exact ih _ (familyOK_installApply g c.1 c.2.1 c.2.2 hg)

/-- C2 witness: two installs (the second overwriting the first) on an
initially empty graph, checked at the reinstalled node. -/
theorem producer_uniqueness_witness :
    familyOK (applyInstalls (ν := Nat) ⟨[]⟩ [(1, 2, [3, 4]), (1, 5, [6])]) 1 :=
  producer_uniqueness [(1, 2, [3, 4]), (1, 5, [6])] ⟨[]⟩ (fun _ => Or.inl rfl) 1

/-! ## Values, builtins, and the canonical Operation (`productor`/`sync`) -/

/-- The builtin symbols of `symbols.py` used by the optimizer.  `partialFn`
stands for `builtins.partial` (the partial-application primitive). -/
inductive Builtin where
  | identity : Builtin
  | mktuple : Builtin
  | index : Builtin
  | partialFn : Builtin
  | add : Builtin
  | multiply : Builtin
  | J : Builtin
  | Jinv : Builtin
  | switch : Builtin
  | divide : Builtin
deriving DecidableEq, Repr

/-- A concrete value carried by a node (`IRNode.values`, a singleton set):
a literal, a builtin `Symbol`, or a reference to a Lambda.  `fone` stands
for the float literal `1.0` of the `multiply_by_one` pattern, the only
float in the rule set (Python\'s cross-type `1.0 == 1` is not modelled; no
claim depends on it). -/
inductive MVal where
  | num : Int → MVal
  | str : String → MVal
  | bsym : Builtin → MVal
  | lamref : Nat → MVal
  | fone : MVal
deriving DecidableEq, Repr

/-- The canonical Operation reconstructed by `sync`.  In the source all five
shapes are `ApplyOperation`s (`Closure`, `Tuple`, `Get`, `Copy` allocate a
fresh `IRValue` holding `partial`/`mktuple`/`index`/`identity` as the
function); we keep the five constructors and expose the desugared
s-expression via `COp.sexp` below. -/
inductive COp (ν : Type) where
  | apply : ν → List ν → COp ν
  | closure : ν → List ν → COp ν
  | tuple : List ν → COp ν
  | get : ν → Nat → COp ν
  | copy : ν → COp ν
deriving DecidableEq, Repr

/-- Role family of a canonical operation. -/
def COp.famOf : COp ν → Fam
  | COp.apply _ _ => Fam.app
  | COp.closure _ _ => Fam.clos
  | COp.tuple _ => Fam.elem
  | COp.get _ _ => Fam.get
  | COp.copy _ => Fam.copy

/-- Failures of `sync`: the `'Same node cannot be produced in multiple
ways.'` exception, and the `KeyError` raised by
`tuple(inputs[i] for i in range(len(inputs)))` when the `IN` indices are not
contiguous from 0. -/
inductive SyncErr where
  | multipleProducers : SyncErr
  | badInputs : SyncErr
deriving DecidableEq, Repr

/-- Python-dict update: `d[k] = v` replaces in place or appends. -/
def updAssoc (l : List (Nat × ν)) (k : Nat) (v : ν) : List (Nat × ν) :=
  if l.any (fun p => decide (p.1 = k)) then
    l.map (fun p => if p.1 = k then (k, v) else p)
  else l ++ [(k, v)]

/-- Accumulator of the edge loop in `IRGraph.sync`. -/
structure SyncAcc (ν : Type) where
  fn? : Option ν := none
  cl? : Option ν := none
  cp? : Option ν := none
  inputs : List (Nat × ν) := []
  elems : List (Nat × ν) := []
  idx? : Option (ν × Nat) := none

/-- One iteration of the `for n, node2, key in e` loop of `sync`. -/
def syncStep (acc : SyncAcc ν) (e : GEdge ν) : SyncAcc ν :=
  match e.2.1 with
  | Role.FN => { acc with fn? := some e.2.2 }
  | Role.CL => { acc with cl? := some e.2.2 }
  | Role.COPY => { acc with cp? := some e.2.2 }
  | Role.IN i => { acc with inputs := updAssoc acc.inputs i e.2.2 }
  | Role.ELEM i => { acc with elems := updAssoc acc.elems i e.2.2 }
  | Role.GET i => { acc with idx? := some (e.2.2, i) }

/-- `args = tuple(inputs[i] for i in range(len(inputs)))`. -/
def mkArgs (inputs : List (Nat × ν)) : Option (List ν) :=
  (List.range inputs.length).mapM
    (fun i => (inputs.find? (fun p => decide (p.1 = i))).map Prod.snd)

/-- The fold of `sync` over a node\'s outgoing edges. -/
def syncOf (g : MGraph ν) (n : ν) : SyncAcc ν :=
  (g.outEdges n).foldl syncStep {}

/-- `len([x for x in [fn, cl, elems, idx, cp] if x])` — how many of the five
head accumulators are set (note `inputs` is not among them). -/
def countHeads (acc : SyncAcc ν) : Nat :=
  (([acc.fn?.isSome, acc.cl?.isSome, !acc.elems.isEmpty,
     acc.idx?.isSome, acc.cp?.isSome] : List Bool)).count true

/-- `IRGraph.sync` / `IRGraph.productor`: fold the node\'s outgoing edges,
fail if more than one of `fn`, `cl`, `elems`, `idx`, `cp` is set/nonempty
(`inputs` is *not* part of that check), then rebuild the canonical
Operation with priority `fn` > `cl` > `elems` > `idx` > `cp`. -/
def productorCore (acc : SyncAcc ν) : Except SyncErr (Option (COp ν)) :=
  if 1 < countHeads acc then
    Except.error SyncErr.multipleProducers
  else if h : acc.fn?.isSome then
    match mkArgs acc.inputs with
    | some args => Except.ok (some (COp.apply (acc.fn?.get h) args))
    | none => Except.error SyncErr.badInputs
  else if h : acc.cl?.isSome then
    match mkArgs acc.inputs with
    | some args => Except.ok (some (COp.closure (acc.cl?.get h) args))
    | none => Except.error SyncErr.badInputs
  else if !acc.elems.isEmpty then
    match mkArgs acc.elems with
    | some es => Except.ok (some (COp.tuple es))
    | none => Except.error SyncErr.badInputs
  else if h : acc.idx?.isSome then
    Except.ok (some (COp.get (acc.idx?.get h).1 (acc.idx?.get h).2))
  else if h : acc.cp?.isSome then
    Except.ok (some (COp.copy (acc.cp?.get h)))
  else
    Except.ok none

/-- `IRGraph.productor`: `sync` then read the reconstructed operation. -/
def productorM (g : MGraph ν) (n : ν) : Except SyncErr (Option (COp ν)) :=
  productorCore (syncOf g n)

/-- Whether a role is the distinguishing "head" of a family (`IN(i)` is a
head of no family: `sync` never checks it for compatibility). -/
def Role.isHead : Role → Fam → Bool
  | Role.FN, Fam.app => true
  | Role.CL, Fam.clos => true
  | Role.ELEM _, Fam.elem => true
  | Role.GET _, Fam.get => true
  | Role.COPY, Fam.copy => true
  | _, _ => false

/-- Presence of a head role (the roles `sync` checks for multiplicity) among
a node's outgoing edges. -/
def headPresent (g : MGraph ν) (n : ν) (f : Fam) : Bool :=
  (g.outEdges n).any (fun e => (e.2.1).isHead f)

/-- Number of distinct head-role kinds among a node's outgoing edges. -/
def headCount (g : MGraph ν) (n : ν) : Nat :=
  (([headPresent g n Fam.app, headPresent g n Fam.clos,
     headPresent g n Fam.elem, headPresent g n Fam.get,
     headPresent g n Fam.copy] : List Bool)).count true

instance exceptDecEq {ε α : Type} [DecidableEq ε] [DecidableEq α] :
    DecidableEq (Except ε α) := fun x y =>
  match x, y with
  | Except.ok a, Except.ok b =>
      if h : a = b then isTrue (by rw [h])
      else isFalse (by intro hh; cases hh; exact h rfl)
  | Except.error a, Except.error b =>
      if h : a = b then isTrue (by rw [h])
      else isFalse (by intro hh; cases hh; exact h rfl)
  | Except.ok _, Except.error _ => isFalse (by intro hh; cases hh)
  | Except.error _, Except.ok _ => isFalse (by intro hh; cases hh)

theorem updAssoc_isEmpty (l : List (Nat × ν)) (k : Nat) (v : ν) :
    (updAssoc l k v).isEmpty = false := by
  unfold updAssoc
  split
  · rename_i h
    cases l with
    | nil => simp at h
    | cons p rest => simp
  · simp

theorem foldl_syncStep_fn (l : List (GEdge ν)) (a : SyncAcc ν) :
    (l.foldl syncStep a).fn?.isSome
      = (a.fn?.isSome || l.any (fun e => (e.2.1).isHead Fam.app)) := by
  induction l generalizing a with
  | nil => simp
  | cons e rest ih =>
      obtain ⟨u, r, v⟩ := e
      cases r <;>
        simp [syncStep, ih, Role.isHead, Bool.or_assoc, Bool.or_comm,
          Bool.or_left_comm]

theorem foldl_syncStep_cl (l : List (GEdge ν)) (a : SyncAcc ν) :
    (l.foldl syncStep a).cl?.isSome
      = (a.cl?.isSome || l.any (fun e => (e.2.1).isHead Fam.clos)) := by
  induction l generalizing a with
  | nil => simp
  | cons e rest ih =>
      obtain ⟨u, r, v⟩ := e
      cases r <;>
        simp [syncStep, ih, Role.isHead, Bool.or_assoc, Bool.or_comm,
          Bool.or_left_comm]

theorem foldl_syncStep_cp (l : List (GEdge ν)) (a : SyncAcc ν) :
    (l.foldl syncStep a).cp?.isSome
      = (a.cp?.isSome || l.any (fun e => (e.2.1).isHead Fam.copy)) := by
  induction l generalizing a with
  | nil => simp
  | cons e rest ih =>
      obtain ⟨u, r, v⟩ := e
      cases r <;>
        simp [syncStep, ih, Role.isHead, Bool.or_assoc, Bool.or_comm,
          Bool.or_left_comm]

theorem foldl_syncStep_idx (l : List (GEdge ν)) (a : SyncAcc ν) :
    (l.foldl syncStep a).idx?.isSome
      = (a.idx?.isSome || l.any (fun e => (e.2.1).isHead Fam.get)) := by
  induction l generalizing a with
  | nil => simp
  | cons e rest ih =>
      obtain ⟨u, r, v⟩ := e
      cases r <;>
        simp [syncStep, ih, Role.isHead, Bool.or_assoc, Bool.or_comm,
          Bool.or_left_comm]

theorem foldl_syncStep_elems (l : List (GEdge ν)) (a : SyncAcc ν) :
    (l.foldl syncStep a).elems.isEmpty
      = (a.elems.isEmpty && !l.any (fun e => (e.2.1).isHead Fam.elem)) := by
  induction l generalizing a with
  | nil => simp
  | cons e rest ih =>
      obtain ⟨u, r, v⟩ := e
      cases r <;>
        simp [syncStep, ih, Role.isHead, updAssoc_isEmpty,
          Bool.and_assoc, Bool.and_comm, Bool.and_left_comm]

theorem countHeads_syncOf (g : MGraph ν) (n : ν) :
    countHeads (syncOf g n) = headCount g n := by
  unfold countHeads headCount syncOf headPresent
  rw [foldl_syncStep_fn, foldl_syncStep_cl, foldl_syncStep_cp,
    foldl_syncStep_idx, foldl_syncStep_elems]
  simp

theorem headCount_pos_of_present {g : MGraph ν} {n : ν} {f : Fam}
    (h : headPresent g n f = true) : 1 ≤ headCount g n := by
  unfold headCount
  cases f <;> simp_all [List.count_cons]
  all_goals omega

theorem syncOf_fn (g : MGraph ν) (n : ν) :
    (syncOf g n).fn?.isSome = headPresent g n Fam.app := by
  unfold syncOf headPresent; rw [foldl_syncStep_fn]; simp

theorem syncOf_cl (g : MGraph ν) (n : ν) :
    (syncOf g n).cl?.isSome = headPresent g n Fam.clos := by
  unfold syncOf headPresent; rw [foldl_syncStep_cl]; simp

theorem syncOf_cp (g : MGraph ν) (n : ν) :
    (syncOf g n).cp?.isSome = headPresent g n Fam.copy := by
  unfold syncOf headPresent; rw [foldl_syncStep_cp]; simp

theorem syncOf_idx (g : MGraph ν) (n : ν) :
    (syncOf g n).idx?.isSome = headPresent g n Fam.get := by
  unfold syncOf headPresent; rw [foldl_syncStep_idx]; simp

theorem syncOf_elems (g : MGraph ν) (n : ν) :
    (syncOf g n).elems.isEmpty = !headPresent g n Fam.elem := by
  unfold syncOf headPresent; rw [foldl_syncStep_elems]; simp

/-- C7 counterexample: a node carrying a `COPY` edge *and* a stray `IN(0)`
edge — two incompatible role families (no `Fam` fits both) — yet
`productor` does not fail: it silently returns the `Copy` operation,
because `sync` never includes `inputs` in its multiple-producers check. -/
theorem productor_no_failure_on_copy_in_mix :
    productorM (ν := Nat) ⟨[(1, Role.COPY, 2), (1, Role.IN 0, 3)]⟩ 1
        = Except.ok (some (COp.copy 2))
      ∧ ¬ ∃ f : Fam, Role.COPY.fits f = true ∧ (Role.IN 0).fits f = true :=
  ⟨rfl, by decide⟩

/-- C7 (amended): `productor(node)` raises the multiple-producers failure
exactly when *at least two distinct head roles* (`FN`, `CL`, `ELEM`, `GET`,
`COPY`) occur among the node\'s outgoing edges; stray `IN(i)` edges are not
part of the check.  With no head role present it returns no operation (even
if `IN(i)` edges exist), and when it returns an operation, exactly one head
role family is present and the operation belongs to it. -/
theorem productor_head_characterization (g : MGraph ν) (n : ν) :
    (1 < headCount g n →
        productorM g n = Except.error SyncErr.multipleProducers)
    ∧ (headCount g n = 0 → productorM g n = Except.ok none)
    ∧ (∀ op : COp ν, productorM g n = Except.ok (some op) →
        headCount g n = 1 ∧ headPresent g n op.famOf = true) := by
  have hc : countHeads (syncOf g n) = headCount g n := countHeads_syncOf g n
  refine ⟨?_, ?_, ?_⟩
  · intro h
    unfold productorM productorCore
    rw [if_pos (by rw [hc]; exact h)]
  · intro h
    have h1 : headPresent g n Fam.app = false := by
      rcases hb : headPresent g n Fam.app with _ | _
      · rfl
      · exact absurd h (by have := headCount_pos_of_present hb; omega)
    have h2 : headPresent g n Fam.clos = false := by
      rcases hb : headPresent g n Fam.clos with _ | _
      · rfl
      · exact absurd h (by have := headCount_pos_of_present hb; omega)
    have h3 : headPresent g n Fam.elem = false := by
      rcases hb : headPresent g n Fam.elem with _ | _
      · rfl
      · exact absurd h (by have := headCount_pos_of_present hb; omega)
    have h4 : headPresent g n Fam.get = false := by
      rcases hb : headPresent g n Fam.get with _ | _
      · rfl
      · exact absurd h (by have := headCount_pos_of_present hb; omega)
    have h5 : headPresent g n Fam.copy = false := by
      rcases hb : headPresent g n Fam.copy with _ | _
      · rfl
      · exact absurd h (by have := headCount_pos_of_present hb; omega)
    unfold productorM productorCore
    simp [hc, h, syncOf_fn, syncOf_cl, syncOf_cp, syncOf_idx, syncOf_elems,
      h1, h2, h3, h4, h5]
  · intro op hop
    unfold productorM productorCore at hop
    split at hop
    · exact absurd hop (by simp)
    · rename_i hnot
      rw [hc] at hnot
      split at hop
      · rename_i hfn
        have hpres : headPresent g n Fam.app = true := by
          rw [← syncOf_fn]; exact hfn
        split at hop
        · cases hop with
          | refl =>
              exact ⟨by have := headCount_pos_of_present hpres; omega,
                by simpa [COp.famOf] using hpres⟩
        · exact absurd hop (by simp)
      · split at hop
        · rename_i hcl
          have hpres : headPresent g n Fam.clos = true := by
            rw [← syncOf_cl]; exact hcl
          split at hop
          · cases hop with
            | refl =>
                exact ⟨by have := headCount_pos_of_present hpres; omega,
                  by simpa [COp.famOf] using hpres⟩
          · exact absurd hop (by simp)
        · split at hop
          · rename_i helems
            have hpres : headPresent g n Fam.elem = true := by
              have := syncOf_elems g n
              rcases hb : headPresent g n Fam.elem with _ | _
              · rw [hb] at this; simp at this; rw [this] at helems; simp at helems
              · rfl
            split at hop
            · cases hop with
              | refl =>
                  exact ⟨by have := headCount_pos_of_present hpres; omega,
                    by simpa [COp.famOf] using hpres⟩
            · exact absurd hop (by simp)
          · split at hop
            · rename_i hidx
              have hpres : headPresent g n Fam.get = true := by
                rw [← syncOf_idx]; exact hidx
              cases hop with
              | refl =>
                  exact ⟨by have := headCount_pos_of_present hpres; omega,
                    by simpa [COp.famOf] using hpres⟩
            · split at hop
              · rename_i hcp
                have hpres : headPresent g n Fam.copy = true := by
                  rw [← syncOf_cp]; exact hcp
                cases hop with
                | refl =>
                    exact ⟨by have := headCount_pos_of_present hpres; omega,
                      by simpa [COp.famOf] using hpres⟩
              · exact absurd hop (by simp)

/-- C7 witness: a node with both an `FN` and a `COPY` edge (two head
families) makes `productor` raise. -/
theorem productor_head_characterization_witness :
    productorM (ν := Nat) ⟨[(1, Role.FN, 2), (1, Role.COPY, 3)]⟩ 1
      = Except.error SyncErr.multipleProducers :=
  (productor_head_characterization ⟨[(1, Role.FN, 2), (1, Role.COPY, 3)]⟩
    1).1 (by decide)

/-! ## Nodes, `IRLambda.replace` and `IRLambda.merge` -/

/-- The four node classes: `IRInput`, `IRComputation`, `IRValue`,
`IRLambda`. -/
inductive NKind where
  | input : NKind
  | comp : NKind
  | value : NKind
  | lam : NKind
deriving DecidableEq, Repr

/-- Immutable per-node data: the Python class of the node, its `values`
attribute (`none` = no value, `some v` = the singleton `[v]`; `has_value()`
tests exactly this), and whether `IRNode.rename` returns the node itself
(`gtag`: the debug tag is a `ValueNode` or a global `Symbol`). -/
structure NInfo where
  kind : NKind
  values : Option MVal
  gtag : Bool
deriving DecidableEq, Repr

/-- The mutable part of an `IRLambda` that `merge`/`replace` touch: its
graph and its designated output node. -/
structure LState (ν : Type) where
  g : MGraph ν
  output : ν
deriving DecidableEq, Repr

/-- One step of the redirect loop of `IRLambda.replace`:
`g.remove_edge(n, old, k); g.add_edge(n, new, k)`. -/
def redirectStep (new : ν) (g : MGraph ν) (e : GEdge ν) : MGraph ν :=
  MGraph.addEdge ⟨g.edges.filter (fun e2 => !decide (e2 = e))⟩
    (e.1, e.2.1, new)

/-- `IRLambda.replace` on the graph: snapshot `in_edges(old)`, then for each
such edge remove it and re-add it pointing at `new`. -/
def replaceG (g : MGraph ν) (old new : ν) : MGraph ν :=
  (g.inEdges old).foldl (redirectStep new) g

/-- `IRLambda.replace`: redirect all incoming edges of `old` to `new` and
update the output designation (`if old is self.output: self.output = new`).
-/
def replaceS (s : LState ν) (old new : ν) : LState ν :=
  { g := replaceG s.g old new,
    output := if s.output = old then new else s.output }

/-- Python-dict update with `Role` keys. -/
def updRole (l : List (Role × ν)) (k : Role) (v : ν) : List (Role × ν) :=
  if l.any (fun p => decide (p.1 = k)) then
    l.map (fun p => if p.1 = k then (k, v) else p)
  else l ++ [(k, v)]

/-- `{k: n for _, n, k in self.graph.edges(node, keys=True)}`: the node\'s
out-edges as a role-keyed dict (later edges overwrite earlier ones of the
same role; key order is first occurrence). -/
def outMap (g : MGraph ν) (n : ν) : List (Role × ν) :=
  (g.outEdges n).foldl (fun m e => updRole m e.2.1 e.2.2) []

/-- `edges1.keys() != edges2.keys()` — Python dict key views compare as
sets. -/
def keysEqB (m1 m2 : List (Role × ν)) : Bool :=
  m1.all (fun p => m2.any (fun q => decide (q.1 = p.1))) &&
  m2.all (fun p => m1.any (fun q => decide (q.1 = p.1)))

/-- The `for k, n3 in edges1.items(): if not self.merge(n3, edges2[k]):
return False` loop of `IRLambda.merge`, followed by success.  `mrg` is the
recursive merge at one less fuel; a missing key (impossible when the key
sets are equal — it would be a Python `KeyError`) is modelled as `none`,
like fuel exhaustion. -/
def mergeMany (mrg : LState ν → ν → ν → Option (Bool × LState ν)) :
    List (Role × ν) → List (Role × ν) → LState ν → Option (Bool × LState ν)
  | [], _, s => some (true, s)
  | (k, n3) :: rest, m2, s =>
    match m2.find? (fun p => decide (p.1 = k)) with
    | none => none
    | some p =>
      match mrg s n3 p.2 with
      | some (true, s2) => mergeMany mrg rest m2 s2
      | r => r

/-- `IRLambda.merge(n1, n2)`, with explicit fuel for the Python recursion.
Identical nodes succeed; mismatched classes fail; `IRLambda` nodes fail;
constant nodes (`_is_constant`: a value-carrying node) merge iff their
values are equal, redirecting `n1`\'s incoming edges to `n2`; otherwise the
two role-keyed operand dicts must have equal key sets and every operand
pair must merge recursively, after which `n1` is replaced by `n2`.
Mutations made by successful operand merges persist even when a later
operand pair fails (the source returns `False` without rollback).
Accessing `.value` of a valueless `n2` (a Python `TypeError`) is modelled
as `none`. -/
def mergeF (info : ν → NInfo) : Nat → LState ν → ν → ν → Option (Bool × LState ν)
  | 0, _, _, _ => none
  | fuel + 1, s, n1, n2 =>
    if n1 = n2 then some (true, s)
    else if ¬ (info n1).kind = (info n2).kind then some (false, s)
    else if (info n1).kind = NKind.lam then some (false, s)
    else if (info n1).values.isSome then
      match (info n2).values with
      | some v2 =>
          if (info n1).values = some v2 then some (true, replaceS s n1 n2)
          else some (false, s)
      | none => none
    else
      if keysEqB (outMap s.g n1) (outMap s.g n2) then
        match mergeMany (mergeF info fuel) (outMap s.g n1) (outMap s.g n2) s with
        | some (true, s2) => some (true, replaceS s2 n1 n2)
        | r => r
      else some (false, s)

/-- Node data of the C9 example: two computation nodes `1`, `2` whose first
operands (`3`, `4`) are equal constants `5` and whose second operands
(`5`, `6`) are the distinct constants `7` and `8`. -/
def infoC9 : Nat → NInfo := fun n =>
  match n with
  | 1 => ⟨NKind.comp, none, false⟩
  | 2 => ⟨NKind.comp, none, false⟩
  | 3 => ⟨NKind.value, some (MVal.num 5), true⟩
  | 4 => ⟨NKind.value, some (MVal.num 5), true⟩
  | 5 => ⟨NKind.value, some (MVal.num 7), true⟩
  | _ => ⟨NKind.value, some (MVal.num 8), true⟩

/-- Graph of the C9 example: `1` has operands `IN(0) → 3`, `IN(1) → 5`;
`2` has operands `IN(0) → 4`, `IN(1) → 6`. -/
def s0C9 : LState Nat :=
  ⟨⟨[(1, Role.IN 0, 3), (1, Role.IN 1, 5),
     (2, Role.IN 0, 4), (2, Role.IN 1, 6)]⟩, 2⟩

/-- C9: `merge(1, 2)` fails (the second operand pair `7 ≠ 8` does not
merge), yet the graph has been mutated: the first operand pair was merged
before the failure, so the edge `1 ==IN(0)=> 3` has been redirected to
`4` and is not rolled back. -/
theorem merge_not_atomic_on_failure :
    mergeF infoC9 3 s0C9 1 2
      = some (false, ⟨⟨[(1, Role.IN 1, 5), (2, Role.IN 0, 4),
          (2, Role.IN 1, 6), (1, Role.IN 0, 4)]⟩, 2⟩)
    ∧ (1, Role.IN 0, 3) ∈ s0C9.g.edges
    ∧ ((1, Role.IN 0, 4) ∉ s0C9.g.edges
        ∧ ∀ s1, mergeF infoC9 3 s0C9 1 2 = some (false, s1) →
            (1, Role.IN 0, 4) ∈ s1.g.edges ∧ (1, Role.IN 0, 3) ∉ s1.g.edges) := by
  refine ⟨rfl, by decide, by decide, ?_⟩
  intro s1 h
  rw [show mergeF infoC9 3 s0C9 1 2
      = some (false, ⟨⟨[(1, Role.IN 1, 5), (2, Role.IN 0, 4),
          (2, Role.IN 1, 6), (1, Role.IN 0, 4)]⟩, 2⟩) from rfl] at h
  cases h
  exact ⟨by decide, by decide⟩

theorem mem_addEdge_iff {g : MGraph ν} {e e2 : GEdge ν} :
    e ∈ (g.addEdge e2).edges ↔ e ∈ g.edges ∨ e = e2 := by
  unfold MGraph.addEdge
  split
  · rename_i h
    constructor
    · exact Or.inl
    · rintro (h1 | rfl)
      · exact h1
      · exact h
  · simp

theorem mem_redirectStep {new : ν} {g : MGraph ν} {e0 x : GEdge ν} :
    x ∈ (redirectStep new g e0).edges ↔
      (x ∈ g.edges ∧ ¬ x = e0) ∨ x = (e0.1, e0.2.1, new) := by
  unfold redirectStep
  rw [mem_addEdge_iff]
  simp [List.mem_filter]

theorem mem_redirect_fold {old new : ν} (hne : ¬ old = new) :
    ∀ (l : List (GEdge ν)) (acc : MGraph ν),
      (∀ e ∈ l, e.2.2 = old) →
      ∀ x, x ∈ (l.foldl (redirectStep new) acc).edges ↔
        ((x ∈ acc.edges ∧ x ∉ l) ∨ ∃ e ∈ l, x = (e.1, e.2.1, new)) := by
  intro l
  induction l with
  | nil => intro acc _ x; simp
  | cons e rest ih =>
      intro acc hl x
      have hrest : ∀ e2 ∈ rest, e2.2.2 = old :=
        fun e2 h2 => hl e2 (List.mem_cons_of_mem _ h2)
      rw [List.foldl_cons, ih _ hrest, mem_redirectStep]
      constructor
      · rintro (⟨⟨hacc, hneq⟩ | rfl, hnot⟩ | ⟨e2, he2, rfl⟩)
        · exact Or.inl ⟨hacc, by simp [hneq, hnot]⟩
        · exact Or.inr ⟨e, List.mem_cons_self e rest, rfl⟩
        · exact Or.inr ⟨e2, List.mem_cons_of_mem _ he2, rfl⟩
      · rintro (⟨hacc, hnot⟩ | ⟨e2, he2, rfl⟩)
        · rw [List.mem_cons] at hnot
          push_neg at hnot
          exact Or.inl ⟨Or.inl ⟨hacc, hnot.1⟩, hnot.2⟩
        · rcases List.mem_cons.1 he2 with rfl | he2
          · exact Or.inl ⟨Or.inr rfl, by
              intro hmem
              exact hne ((hrest _ hmem).symm)⟩
          · exact Or.inr ⟨e2, he2, rfl⟩

theorem mem_replaceG_iff {g : MGraph ν} {old new : ν} (hne : ¬ old = new)
    (x : GEdge ν) :
    x ∈ (replaceG g old new).edges ↔
      (x ∈ g.edges ∧ ¬ x.2.2 = old) ∨
      (x.2.2 = new ∧ (x.1, x.2.1, old) ∈ g.edges) := by
  unfold replaceG
  rw [mem_redirect_fold hne (g.inEdges old) g
    (fun e he => of_decide_eq_true (List.mem_filter.1 he).2) x]
  unfold MGraph.inEdges
  constructor
  · rintro (⟨hg, hnot⟩ | ⟨e, he, rfl⟩)
    · refine Or.inl ⟨hg, ?_⟩
      intro htgt
      exact hnot (List.mem_filter.2 ⟨hg, decide_eq_true htgt⟩)
    · have he2 := List.mem_filter.1 he
      refine Or.inr ⟨rfl, ?_⟩
      have : e = (e.1, e.2.1, old) := by
        have := of_decide_eq_true he2.2
        obtain ⟨a, b, c⟩ := e
        simp only at this
        rw [this]
      rw [← this]
      exact he2.1
  · rintro (⟨hg, hnot⟩ | ⟨htgt, hmem⟩)
    · refine Or.inl ⟨hg, ?_⟩
      intro hmem2
      exact hnot (of_decide_eq_true (List.mem_filter.1 hmem2).2)
    · refine Or.inr ⟨(x.1, x.2.1, old), List.mem_filter.2 ⟨hmem, by simp⟩, ?_⟩
      obtain ⟨a, b, c⟩ := x
      simp only at htgt
      rw [htgt]

/-- `u ==k=> v` for some role: `v` is an operand of `u`. -/
def EdgeRel (g : MGraph ν) (u v : ν) : Prop := ∃ k, (u, k, v) ∈ g.edges

/-- Reachability along producer edges. -/
def Reach (g : MGraph ν) : ν → ν → Prop := Relation.ReflTransGen (EdgeRel g)

/-- The graph has no directed cycle (ANF graphs are acyclic by
construction; a cycle is a fatal inconsistency per the spec). -/
def AcyclicG (g : MGraph ν) : Prop :=
  ∀ u v, EdgeRel g u v → Reach g v u → False

/-- `g` is `g0` with every edge target moved through `τ` (sources and roles
of edges are never touched by `replace`, only targets are redirected). -/
def Retargets (g0 g : MGraph ν) (τ : ν → ν) : Prop :=
  (∀ e ∈ g0.edges, (e.1, e.2.1, τ e.2.2) ∈ g.edges) ∧
  (∀ e ∈ g.edges, ∃ v0, (e.1, e.2.1, v0) ∈ g0.edges ∧ e.2.2 = τ v0)

/-- The redirect map only moves nodes inside `S` (and to nodes of `S`). -/
def TauOK (S : Set ν) (τ : ν → ν) : Prop :=
  ∀ v, ¬ τ v = v → v ∈ S ∧ τ v ∈ S

theorem reach_rank_le {g : MGraph ν} (rk : ν → Nat)
    (h : ∀ e ∈ g.edges, rk e.2.2 < rk e.1) {a b : ν} (hr : Reach g a b) :
    rk b ≤ rk a := by
  induction hr with
  | refl => exact le_refl _
  | tail _ h2 ih =>
      rcases h2 with ⟨k, hk⟩
      exact le_trans (le_of_lt (h _ hk)) ih

theorem rank_acyclic {g : MGraph ν} (rk : ν → Nat)
    (h : ∀ e ∈ g.edges, rk e.2.2 < rk e.1) : AcyclicG g := by
  intro u v he hr
  rcases he with ⟨k, hk⟩
  have h1 : rk v < rk u := by simpa using h _ hk
  have h2 := reach_rank_le rk h hr
  omega

theorem rank_noReach {g : MGraph ν} (rk : ν → Nat)
    (h : ∀ e ∈ g.edges, rk e.2.2 < rk e.1) {a b : ν} (hne : ¬ a = b)
    (hle : rk a ≤ rk b) : ¬ Reach g a b := by
  intro hr
  rcases Relation.ReflTransGen.cases_head hr with rfl | ⟨c, hac, hcb⟩
  · exact hne rfl
  · rcases hac with ⟨k, hk⟩
    have h1 : rk c < rk a := by simpa using h _ hk
    have h2 := reach_rank_le rk h hcb
    omega

theorem mem_updRole {l : List (Role × ν)} {k : Role} {v : ν} {p : Role × ν}
    (h : p ∈ updRole l k v) : p ∈ l ∨ p = (k, v) := by
  unfold updRole at h
  split at h
  · rcases List.mem_map.1 h with ⟨q, hq, hfq⟩
    by_cases hk : q.1 = k
    · rw [if_pos hk] at hfq
      exact Or.inr hfq.symm
    · rw [if_neg hk] at hfq
      exact Or.inl (hfq ▸ hq)
  · rcases List.mem_append.1 h with h1 | h1
    · exact Or.inl h1
    · exact Or.inr (List.mem_singleton.1 h1)

theorem mem_outMap {g : MGraph ν} {n : ν} {p : Role × ν}
    (h : p ∈ outMap g n) : (n, p.1, p.2) ∈ g.edges := by
  unfold outMap at h
  suffices hgen : ∀ (l : List (GEdge ν)) (acc : List (Role × ν)),
      (∀ q ∈ acc, (n, q.1, q.2) ∈ g.edges) →
      (∀ e ∈ l, e.1 = n ∧ e ∈ g.edges) →
      ∀ q ∈ l.foldl (fun m e => updRole m e.2.1 e.2.2) acc,
        (n, q.1, q.2) ∈ g.edges by
    refine hgen (g.outEdges n) [] (by simp) ?_ p h
    intro e he
    have he2 := List.mem_filter.1 he
    exact ⟨of_decide_eq_true he2.2, he2.1⟩
  intro l
  induction l with
  | nil => intro acc hacc _ q hq; exact hacc q hq
  | cons e rest ih =>
      intro acc hacc hl q hq
      refine ih _ ?_ (fun e2 h2 => hl e2 (List.mem_cons_of_mem _ h2)) q hq
      intro q2 hq2
      rcases mem_updRole hq2 with h2 | rfl
      · exact hacc q2 h2
      · have := hl e (List.mem_cons_self e rest)
        obtain ⟨a, b, c⟩ := e
        simp only at this ⊢
        rw [this.1] at this
        exact this.2

theorem retargets_replace {g0 g : MGraph ν} {τ : ν → ν} {c d : ν}
    (hret : Retargets g0 g τ) (hcd : ¬ c = d) :
    Retargets g0 (replaceG g c d) (fun v => if τ v = c then d else τ v) := by
  constructor
  · intro e he
    show (e.1, e.2.1, if τ e.2.2 = c then d else τ e.2.2) ∈ (replaceG g c d).edges
    by_cases hv : τ e.2.2 = c
    · rw [if_pos hv]
      refine (mem_replaceG_iff hcd _).2 (Or.inr ⟨rfl, ?_⟩)
      have h1 := hret.1 e he
      rw [hv] at h1
      exact h1
    · rw [if_neg hv]
      exact (mem_replaceG_iff hcd _).2 (Or.inl ⟨hret.1 e he, hv⟩)
  · intro e he
    rcases (mem_replaceG_iff hcd e).1 he with ⟨hg, hne⟩ | ⟨htgt, hmem⟩
    · rcases hret.2 e hg with ⟨v0, hv0, htv⟩
      refine ⟨v0, hv0, ?_⟩
      show e.2.2 = if τ v0 = c then d else τ v0
      rw [htv] at hne
      rw [if_neg hne, htv]
    · rcases hret.2 _ hmem with ⟨v0, hv0, htv⟩
      simp only at htv hv0
      refine ⟨v0, hv0, ?_⟩
      show e.2.2 = if τ v0 = c then d else τ v0
      rw [if_pos htv.symm, htgt]

theorem tauOK_update {S : Set ν} {τ : ν → ν} {c d : ν}
    (h : TauOK S τ) (hc : c ∈ S) (hd : d ∈ S) :
    TauOK S (fun v => if τ v = c then d else τ v) := by
  intro v hv
  by_cases hvc : τ v = c
  · simp only [if_pos hvc]
    refine ⟨?_, hd⟩
    by_cases hfix : τ v = v
    · rw [hfix] at hvc; exact hvc ▸ hc
    · exact (h v hfix).1
  · simp only [if_neg hvc] at hv ⊢
    exact h v hv

theorem replace_output_iff {S : Set ν} {x c d : ν} (hc : c ∈ S) (hd : d ∈ S)
    (hx : x ∉ S) (s : LState ν) :
    ((replaceS s c d).output = x ↔ s.output = x) := by
  unfold replaceS
  simp only
  split
  · rename_i hoc
    constructor
    · intro h1; exact absurd (h1 ▸ hd) hx
    · intro h1; exact absurd ((hoc.symm.trans h1) ▸ hc) hx
  · exact Iff.rfl

theorem mergeMany_aux {g0 : MGraph ν} {x : ν} {S : Set ν} (_hx : x ∉ S)
    (mrg : LState ν → ν → ν → Option (Bool × LState ν))
    (hmrg : ∀ (s : LState ν) (τ : ν → ν) (c d : ν) (r : Bool) (s' : LState ν),
      c ∈ S → d ∈ S → Retargets g0 s.g τ → TauOK S τ →
      mrg s c d = some (r, s') →
      ∃ τ', Retargets g0 s'.g τ' ∧ TauOK S τ' ∧ (s'.output = x ↔ s.output = x)) :
    ∀ (m1 m2 : List (Role × ν)) (s : LState ν) (τ : ν → ν) (r : Bool)
      (s' : LState ν),
      (∀ p ∈ m1, p.2 ∈ S) → (∀ p ∈ m2, p.2 ∈ S) →
      Retargets g0 s.g τ → TauOK S τ →
      mergeMany mrg m1 m2 s = some (r, s') →
      ∃ τ', Retargets g0 s'.g τ' ∧ TauOK S τ' ∧ (s'.output = x ↔ s.output = x) := by
  intro m1
  induction m1 with
  | nil =>
      intro m2 s τ r s' _ _ hret htau h
      unfold mergeMany at h
      cases h
      exact ⟨τ, hret, htau, Iff.rfl⟩
  | cons p rest ih =>
      intro m2 s τ r s' hm1 hm2 hret htau h
      obtain ⟨k, n3⟩ := p
      unfold mergeMany at h
      cases hfind : m2.find? (fun q => decide (q.1 = k)) with
      | none => simp only [hfind] at h; cases h
      | some q =>
          simp only [hfind] at h
          have hqS : q.2 ∈ S := hm2 q (List.mem_of_find?_eq_some hfind)
          have hn3S : n3 ∈ S := by
            have h2 := hm1 (k, n3) (List.mem_cons_self _ _)
            simpa using h2
          cases hres : mrg s n3 q.2 with
          | none => simp only [hres] at h; cases h
          | some rs =>
              obtain ⟨rb, s2⟩ := rs
              cases rb with
              | true =>
                  simp only [hres] at h
                  rcases hmrg s τ n3 q.2 true s2 hn3S hqS hret htau hres with
                    ⟨τ2, hret2, htau2, hout2⟩
                  rcases ih m2 s2 τ2 r s'
                    (fun p hp => hm1 p (List.mem_cons_of_mem _ hp)) hm2
                    hret2 htau2 h with ⟨τ3, hret3, htau3, hout3⟩
                  exact ⟨τ3, hret3, htau3, hout3.trans hout2⟩
              | false =>
                  simp only [hres] at h
                  cases h
                  exact hmrg s τ n3 q.2 false s' hn3S hqS hret htau hres

theorem mergeF_aux (info : ν → NInfo) {g0 : MGraph ν} {x : ν} {S : Set ν}
    (hS : ∀ c ∈ S, ∀ (k : Role) (v : ν), (c, k, v) ∈ g0.edges → v ∈ S)
    (hx : x ∉ S) :
    ∀ (fuel : Nat) (s : LState ν) (τ : ν → ν) (c d : ν) (r : Bool)
      (s' : LState ν),
      c ∈ S → d ∈ S → Retargets g0 s.g τ → TauOK S τ →
      mergeF info fuel s c d = some (r, s') →
      ∃ τ', Retargets g0 s'.g τ' ∧ TauOK S τ' ∧ (s'.output = x ↔ s.output = x) := by
  intro fuel
  induction fuel with
  | zero => intro s τ c d r s' _ _ _ _ h; cases h
  | succ f ih =>
      intro s τ c d r s' hcS hdS hret htau h
      unfold mergeF at h
      by_cases hcd : c = d
      · rw [if_pos hcd] at h; cases h; exact ⟨τ, hret, htau, Iff.rfl⟩
      rw [if_neg hcd] at h
      by_cases hkind : ¬ (info c).kind = (info d).kind
      · rw [if_pos hkind] at h; cases h; exact ⟨τ, hret, htau, Iff.rfl⟩
      rw [if_neg hkind] at h
      by_cases hlam : (info c).kind = NKind.lam
      · rw [if_pos hlam] at h; cases h; exact ⟨τ, hret, htau, Iff.rfl⟩
      rw [if_neg hlam] at h
      by_cases hval : (info c).values.isSome = true
      · rw [if_pos hval] at h
        cases hv2 : (info d).values with
        | none => simp only [hv2] at h; cases h
        | some v2 =>
            simp only [hv2] at h
            by_cases heq : (info c).values = some v2
            · rw [if_pos heq] at h
              cases h
              exact ⟨_, retargets_replace hret hcd, tauOK_update htau hcS hdS,
                replace_output_iff hcS hdS hx s⟩
            · rw [if_neg heq] at h; cases h; exact ⟨τ, hret, htau, Iff.rfl⟩
      · rw [if_neg hval] at h
        have hm1S : ∀ p ∈ outMap s.g c, p.2 ∈ S := by
          intro p hp
          have hedge := mem_outMap hp
          rcases hret.2 _ hedge with ⟨v0, hv0, htv⟩
          simp only at hv0 htv
          have hv0S : v0 ∈ S := hS c hcS p.1 v0 hv0
          by_cases hfix : τ v0 = v0
          · rw [htv, hfix]; exact hv0S
          · rw [htv]; exact (htau v0 hfix).2
        have hm2S : ∀ p ∈ outMap s.g d, p.2 ∈ S := by
          intro p hp
          have hedge := mem_outMap hp
          rcases hret.2 _ hedge with ⟨v0, hv0, htv⟩
          simp only at hv0 htv
          have hv0S : v0 ∈ S := hS d hdS p.1 v0 hv0
          by_cases hfix : τ v0 = v0
          · rw [htv, hfix]; exact hv0S
          · rw [htv]; exact (htau v0 hfix).2
        by_cases hkeys : keysEqB (outMap s.g c) (outMap s.g d) = true
        · rw [if_pos hkeys] at h
          cases hmm : mergeMany (mergeF info f) (outMap s.g c) (outMap s.g d) s with
          | none => simp only [hmm] at h; cases h
          | some rs =>
              obtain ⟨rb, s2⟩ := rs
              cases rb with
              | true =>
                  simp only [hmm] at h
                  cases h
                  rcases mergeMany_aux hx (mergeF info f) ih
                    (outMap s.g c) (outMap s.g d) s τ true s2
                    hm1S hm2S hret htau hmm with ⟨τ2, hret2, htau2, hout2⟩
                  exact ⟨_, retargets_replace hret2 hcd,
                    tauOK_update htau2 hcS hdS,
                    (replace_output_iff hcS hdS hx s2).trans hout2⟩
              | false =>
                  simp only [hmm] at h
                  cases h
                  exact mergeMany_aux hx (mergeF info f) ih
                    (outMap s.g c) (outMap s.g d) s τ false s'
                    hm1S hm2S hret htau hmm
        · rw [if_neg hkeys] at h; cases h; exact ⟨τ, hret, htau, Iff.rfl⟩

/-- C5: if `merge(a, b)` succeeds on a Lambda\'s graph (acyclic, as ANF
graphs are by construction, and with `a` not an operand-descendant of `b`,
which a successful structural merge of distinct nodes presupposes), then
every edge that previously pointed at `a` now points at `b` (same source
and role), no edge in the resulting graph still points at `a`, and if `a`
was the Output node then the Output is now `b`. -/
theorem merge_soundness (info : ν → NInfo) (fuel : Nat) (s0 s1 : LState ν)
    (x y : ν) (hxy : ¬ x = y) (hacyc : AcyclicG s0.g)
    (hyx : ¬ Reach s0.g y x)
    (hsucc : mergeF info fuel s0 x y = some (true, s1)) :
    (∀ (u : ν) (k : Role), (u, k, x) ∈ s0.g.edges → (u, k, y) ∈ s1.g.edges)
    ∧ (∀ e ∈ s1.g.edges, ¬ e.2.2 = x)
    ∧ (s0.output = x → s1.output = y) := by
  classical
  have hxS : x ∉ {v | (Reach s0.g x v ∧ ¬ v = x) ∨ Reach s0.g y v} := by
    intro hmem
    rcases hmem with ⟨_, hne⟩ | hry
    · exact hne rfl
    · exact hyx hry
  have hSclosed : ∀ c ∈ {v | (Reach s0.g x v ∧ ¬ v = x) ∨ Reach s0.g y v},
      ∀ (k : Role) (v : ν), (c, k, v) ∈ s0.g.edges →
        v ∈ {v | (Reach s0.g x v ∧ ¬ v = x) ∨ Reach s0.g y v} := by
    intro c hc k v hcv
    rcases hc with ⟨hrx, _⟩ | hry
    · by_cases hvx : v = x
      · exfalso
        refine hacyc c v ⟨k, hcv⟩ ?_
        rw [hvx]
        exact hrx
      · exact Or.inl ⟨Relation.ReflTransGen.tail hrx ⟨k, hcv⟩, hvx⟩
    · exact Or.inr (Relation.ReflTransGen.tail hry ⟨k, hcv⟩)
  cases fuel with
  | zero => cases hsucc
  | succ f =>
      unfold mergeF at hsucc
      rw [if_neg hxy] at hsucc
      by_cases hkind : ¬ (info x).kind = (info y).kind
      · rw [if_pos hkind] at hsucc; cases hsucc
      rw [if_neg hkind] at hsucc
      by_cases hlam : (info x).kind = NKind.lam
      · rw [if_pos hlam] at hsucc; cases hsucc
      rw [if_neg hlam] at hsucc
      by_cases hval : (info x).values.isSome = true
      · rw [if_pos hval] at hsucc
        cases hv2 : (info y).values with
        | none => simp [hv2] at hsucc
        | some v2 =>
            simp only [hv2] at hsucc
            by_cases heq : (info x).values = some v2
            · rw [if_pos heq] at hsucc
              cases hsucc
              refine ⟨?_, ?_, ?_⟩
              · intro u k hm
                exact (mem_replaceG_iff hxy _).2 (Or.inr ⟨rfl, hm⟩)
              · intro e he
                rcases (mem_replaceG_iff hxy e).1 he with ⟨_, hne⟩ | ⟨htgt, _⟩
                · exact hne
                · rw [htgt]; intro h2; exact hxy h2.symm
              · intro hox
                unfold replaceS
                simp only
                rw [if_pos hox]
            · rw [if_neg heq] at hsucc; cases hsucc
      · rw [if_neg hval] at hsucc
        by_cases hkeys : keysEqB (outMap s0.g x) (outMap s0.g y) = true
        · rw [if_pos hkeys] at hsucc
          cases hmm : mergeMany (mergeF info f) (outMap s0.g x) (outMap s0.g y)
              s0 with
          | none => simp [hmm] at hsucc
          | some rs =>
              obtain ⟨rb, s2⟩ := rs
              cases rb with
              | false => simp [hmm] at hsucc
              | true =>
                  simp only [hmm] at hsucc
                  cases hsucc
                  have hm1S : ∀ p ∈ outMap s0.g x,
                      p.2 ∈ {v | (Reach s0.g x v ∧ ¬ v = x) ∨ Reach s0.g y v} := by
                    intro p hp
                    have hedge := mem_outMap hp
                    by_cases hvx : p.2 = x
                    · exfalso
                      refine hacyc x p.2 ⟨p.1, hedge⟩ ?_
                      rw [hvx]
                      exact Relation.ReflTransGen.refl
                    · exact Or.inl
                        ⟨Relation.ReflTransGen.single ⟨p.1, hedge⟩, hvx⟩
                  have hm2S : ∀ p ∈ outMap s0.g y,
                      p.2 ∈ {v | (Reach s0.g x v ∧ ¬ v = x) ∨ Reach s0.g y v} :=
                    fun p hp => Or.inr
                      (Relation.ReflTransGen.single ⟨p.1, mem_outMap hp⟩)
                  have hid : Retargets s0.g s0.g (fun v => v) := by
                    constructor
                    · intro e he
                      obtain ⟨a, b, c⟩ := e
                      exact he
                    · intro e he
                      refine ⟨e.2.2, ?_, rfl⟩
                      obtain ⟨a, b, c⟩ := e
                      exact he
                  have htauid :
                      TauOK {v | (Reach s0.g x v ∧ ¬ v = x) ∨ Reach s0.g y v}
                        (fun v => v) := fun v hv => absurd rfl hv
                  rcases mergeMany_aux hxS (mergeF info f)
                    (mergeF_aux info hSclosed hxS f)
                    (outMap s0.g x) (outMap s0.g y) s0 (fun v => v) true s2
                    hm1S hm2S hid htauid hmm with ⟨τ2, hret2, htau2, hout2⟩
                  refine ⟨?_, ?_, ?_⟩
                  · intro u k hm
                    have hτx : τ2 x = x := by
                      by_cases hfix : τ2 x = x
                      · exact hfix
                      · exact absurd (htau2 x hfix).1 hxS
                    have h2 := hret2.1 (u, k, x) hm
                    simp only at h2
                    rw [hτx] at h2
                    exact (mem_replaceG_iff hxy _).2 (Or.inr ⟨rfl, h2⟩)
                  · intro e he
                    rcases (mem_replaceG_iff hxy e).1 he with ⟨_, hne⟩ | ⟨htgt, _⟩
                    · exact hne
                    · rw [htgt]; intro h2; exact hxy h2.symm
                  · intro hox
                    have h2 : s2.output = x := hout2.2 hox
                    unfold replaceS
                    simp only
                    rw [if_pos h2]
        · rw [if_neg hkeys] at hsucc; cases hsucc

/-- Witness data: a parent node `10` consuming the constant node `1`;
node `2` is an equal constant. -/
def infoW : Nat → NInfo := fun n =>
  if n = 10 then ⟨NKind.comp, none, false⟩ else ⟨NKind.value, some (MVal.num 5), true⟩

/-- Witness graph: `10 ==IN(0)=> 1`, output `1`. -/
def s0W : LState Nat := ⟨⟨[(10, Role.IN 0, 1)]⟩, 1⟩

/-- Rank certificate for `s0W` (edges strictly decrease the rank). -/
def rkW : Nat → Nat := fun n => if n = 10 then 1 else 0

/-- C5 witness: merging constant node `1` into node `2` redirects the
parent\'s edge and moves the output designation. -/
theorem merge_soundness_witness :
    (10, Role.IN 0, 2) ∈ (⟨⟨[(10, Role.IN 0, 2)]⟩, 2⟩ : LState Nat).g.edges ∧
    (⟨⟨[(10, Role.IN 0, 2)]⟩, 2⟩ : LState Nat).output = 2 := by
  have h := merge_soundness infoW 1 s0W ⟨⟨[(10, Role.IN 0, 2)]⟩, 2⟩ 1 2
    (by decide) (rank_acyclic rkW (by decide))
    (rank_noReach rkW (by decide) (by decide) (by decide)) rfl
  exact ⟨h.1 10 (Role.IN 0) (by decide), h.2.2 rfl⟩

/-! ## The pattern-matching rewrite engine (`PatternOpt` and the rules) -/

/-- An element of the s-expression view of a canonical operation: either an
actual graph node, or the fresh `IRValue` the sugar constructors
(`Closure`/`Tuple`/`Get`/`Copy`) allocate as the function/index of the
desugared `ApplyOperation`. -/
inductive Atom (ν : Type) where
  | node : ν → Atom ν
  | vval : MVal → Atom ν
deriving DecidableEq, Repr

/-- The desugared `(prod.fn,) + prod.args` s-expression of a canonical
operation, as the matcher sees it. -/
def COp.sexp : COp ν → List (Atom ν)
  | COp.apply fn args => Atom.node fn :: args.map Atom.node
  | COp.closure fn args =>
      Atom.vval (MVal.bsym Builtin.partialFn) :: Atom.node fn ::
        args.map Atom.node
  | COp.tuple es => Atom.vval (MVal.bsym Builtin.mktuple) :: es.map Atom.node
  | COp.get a i =>
      [Atom.vval (MVal.bsym Builtin.index), Atom.node a,
       Atom.vval (MVal.num i)]
  | COp.copy src => [Atom.vval (MVal.bsym Builtin.identity), Atom.node src]

/-- A match candidate: a single node/value, or the spliced list captured by
the wildcard. -/
inductive Cand (ν : Type) where
  | one : Atom ν → Cand ν
  | many : List (Atom ν) → Cand ν
deriving DecidableEq, Repr

/-- Variable constraints of the pattern variables: `X`/`Y`/`Z` are plain,
`V`/`V1`/`V2` require `has_value()`, `L` requires an `IRLambda` node. -/
inductive Filt where
  | plain : Filt
  | hasVal : Filt
  | isLam : Filt
deriving DecidableEq, Repr

/-- An s-expression pattern: a literal value, a variable, the `...`
wildcard marker, or a nested tuple. -/
inductive Pat where
  | lit : MVal → Pat
  | pv : String → Filt → Pat
  | wild : Pat
  | tup : List Pat → Pat

/-- Is this pattern element the `...` wildcard marker? (`... in pattern`
and `pattern.index(...)` test identity with `Ellipsis`.) -/
def Pat.isWild : Pat → Bool
  | Pat.wild => true
  | _ => false

/-- A binding in the unifier\'s substitution: a single node/value, or the
node list captured by the wildcard. -/
inductive Bind (ν : Type) where
  | one : Atom ν → Bind ν
  | many : List (Atom ν) → Bind ν
deriving DecidableEq, Repr

/-- The substitution `U` of `_match`: a Python dict keyed by variable
name. -/
abbrev Env (ν : Type) := List (String × Bind ν)

/-- Errors the rewrite engine can raise: a `sync` failure from `productor`,
a model-level stuck state (recursion fuel, or a Python crash such as
calling `productor` on a list), and an evaluator exception escaping
`eval_constant`. -/
inductive RErr where
  | sync : SyncErr → RErr
  | stuck : RErr
  | evalFail : String → RErr
deriving DecidableEq, Repr

/-- Result of `_match`: an exception, no match (`False`), or the binding
dict. -/
abbrev MRes (ν : Type) := Except RErr (Option (Env ν))

/-- Does the atom satisfy the variable\'s constraint?  Modelled from the
spec: value-constrained variables match only nodes currently resolvable to
a concrete literal (`has_value()`), lambda-constrained ones only Lambda
nodes. -/
def atomFilt (info : ν → NInfo) : Filt → Atom ν → Bool
  | Filt.plain, _ => true
  | Filt.hasVal, Atom.node id => (info id).values.isSome
  | Filt.hasVal, Atom.vval _ => true
  | Filt.isLam, Atom.node id => decide ((info id).kind = NKind.lam)
  | Filt.isLam, Atom.vval _ => false

/-- Python dict lookup. -/
def envLookup (env : Env ν) (name : String) : Option (Bind ν) :=
  (env.find? (fun p => decide (p.1 = name))).map Prod.snd

/-- Python dict update `{**U, var: b}`. -/
def envBind (env : Env ν) (name : String) (b : Bind ν) : Env ν :=
  if env.any (fun p => decide (p.1 = name)) then
    env.map (fun p => if p.1 = name then (name, b) else p)
  else env ++ [(name, b)]

/-- Modelled from the spec (the unifier of `myia.inference.types` is not
under `src/`): unifying a constrained variable against a single candidate —
the constraint must hold and, when the variable is already bound, the new
candidate must equal the old binding; otherwise the variable is bound. -/
def unifyVar (info : ν → NInfo) (env : Env ν) (name : String) (f : Filt)
    (a : Atom ν) : Option (Env ν) :=
  if atomFilt info f a then
    match envLookup env name with
    | some b => if b = Bind.one a then some env else none
    | none => some (envBind env name (Bind.one a))
  else none

/-- Matching a fixed-length list of candidates against a list of pattern
elements, threading the substitution (`for p, e in zip(pattern, sexp)`).
`mp` is the recursive `_match` at one less fuel. -/
def matchSeq (mp : Cand ν → Pat → Env ν → MRes ν) :
    List (Cand ν) → List Pat → Env ν → MRes ν
  | [], _, env => Except.ok (some env)
  | c :: cs, p :: ps, env =>
      match mp c p env with
      | Except.ok (some env2) => matchSeq mp cs ps env2
      | r => r
  | _ :: _, [], env => Except.ok (some env)

/-- `PatternOpt._match`, with fuel for the Python recursion.  A tuple
pattern requires the candidate\'s canonical Operation to be an
`ApplyOperation` and matches against `(prod.fn,) + prod.args`, splicing the
span matched by a `...` wildcard into a list bound to the preceding
variable (every registered rule places the wildcard last, so the
tail-after-wildcard is empty and Python\'s negative slicing cannot occur);
a bound list is only matched by a plain variable; otherwise variables unify
with the candidate and literals compare against the candidate\'s value. -/
def matchPat (info : ν → NInfo) (g : MGraph ν) :
    Nat → Cand ν → Pat → Env ν → MRes ν
  | 0, _, _, _ => Except.error RErr.stuck
  | fuel + 1, c, p, env =>
    match p with
    | Pat.tup ps =>
        match c with
        | Cand.many _ => Except.error RErr.stuck
        | Cand.one (Atom.vval _) => Except.ok none
        | Cand.one (Atom.node id) =>
            match productorM g id with
            | Except.error e => Except.error (RErr.sync e)
            | Except.ok none => Except.ok none
            | Except.ok (some op) =>
                let sexp := op.sexp
                if ps.any Pat.isWild then
                  let idx := ps.findIdx Pat.isWild
                  let ntail := ps.length - idx - 1
                  let ps2 := ps.eraseIdx idx
                  let idxLast := sexp.length - ntail
                  let mid := (sexp.drop (idx - 1)).take (idxLast - (idx - 1))
                  let sexp2 := (sexp.take (idx - 1)).map Cand.one ++
                    [Cand.many mid] ++ (sexp.drop idxLast).map Cand.one
                  if ¬ sexp2.length = ps2.length then Except.ok none
                  else matchSeq (matchPat info g fuel) sexp2 ps2 env
                else
                  if ¬ sexp.length = ps.length then Except.ok none
                  else matchSeq (matchPat info g fuel) (sexp.map Cand.one) ps env
    | Pat.pv name f =>
        match c with
        | Cand.many xs =>
            if xs.all (fun x => atomFilt info f x &&
                match envLookup env name with
                | some b => decide (b = Bind.one x)
                | none => true) then
              Except.ok (some (envBind env name (Bind.many xs)))
            else Except.ok none
        | Cand.one a =>
            match unifyVar info env name f a with
            | some env2 => Except.ok (some env2)
            | none => Except.ok none
    | Pat.lit v =>
        match c with
        | Cand.many _ => Except.ok none
        | Cand.one (Atom.vval w) =>
            if v = w then Except.ok (some env) else Except.ok none
        | Cand.one (Atom.node id) =>
            match (info id).values with
            | some w => if v = w then Except.ok (some env) else Except.ok none
            | none => Except.ok none
    | Pat.wild => Except.ok none

/-- The content of an `IRLambda` seen as a value: its own graph\'s edges,
its ordered inputs and its output node. -/
structure LamContent where
  edges : List (GEdge Nat)
  inputs : List Nat
  output : Nat

/-- Full state of the rewrite engine on one `IRLambda`: the mutable graph
and output, the per-node data, the contents of Lambda nodes, and the
fresh-node allocator (`ogen`/`GenSym` and Python object allocation: every
`IRNode` created gets a fresh identity). -/
structure RState where
  st : LState Nat
  info : Nat → NInfo
  lams : Nat → Option LamContent
  gen : Nat

/-- Allocate a fresh node with the given data. -/
def alloc (r : RState) (i : NInfo) : Nat × RState :=
  (r.gen,
   { r with info := fun m => if m = r.gen then i else r.info m,
            gen := r.gen + 1 })

/-- What a rule handler returns: `True`/`False`, a replacement
`ApplyOperation(fn, args)` to install in place, or a replacement node. -/
inductive HRes where
  | noop : Bool → HRes
  | instOp : Nat → List Nat → HRes
  | repl : Nat → HRes

/-- A rule: an s-expression pattern plus a handler
(`PatternOpt(pattern, handler)`). -/
structure Rule where
  pattern : Pat
  handler : RState → Nat → Env Nat → Except RErr (HRes × RState)

/-- The node behind an atom (a handler receiving a virtual value where it
expects a node is a Python crash, modelled as stuck). -/
def atomId : Atom Nat → Except RErr Nat
  | Atom.node id => Except.ok id
  | Atom.vval _ => Except.error RErr.stuck

/-- `a.value` — the single concrete value of an atom. -/
def atomVal (info : Nat → NInfo) : Atom Nat → Except RErr MVal
  | Atom.node id =>
      match (info id).values with
      | some v => Except.ok v
      | none => Except.error RErr.stuck
  | Atom.vval v => Except.ok v

/-- Extract a singly-bound handler keyword argument (a missing keyword is a
Python `TypeError`, modelled as stuck). -/
def envNode (env : Env Nat) (name : String) : Except RErr (Atom Nat) :=
  match envLookup env name with
  | some (Bind.one a) => Except.ok a
  | _ => Except.error RErr.stuck

/-- Extract a list-bound handler keyword argument. -/
def envList (env : Env Nat) (name : String) : Except RErr (List (Atom Nat)) :=
  match envLookup env name with
  | some (Bind.many xs) => Except.ok xs
  | _ => Except.error RErr.stuck

/-- The loop of `add_tuples`: for each operand pair allocate a fresh
computation node (`IRComputation(ogen('T'))`, a global tag) and a fresh
`IRValue(builtins.add)`, and install the addition; `zip` truncates to the
shorter list. -/
def addTuplesLoop : List (Atom Nat) → List (Atom Nat) → RState →
    Except RErr (List Nat × RState)
  | x :: xs, y :: ys, r =>
      match atomId x with
      | Except.error e => Except.error e
      | Except.ok xi =>
        match atomId y with
        | Except.error e => Except.error e
        | Except.ok yi =>
          match alloc r ⟨NKind.comp, none, true⟩ with
          | (t, r1) =>
            match alloc r1 ⟨NKind.value, some (MVal.bsym Builtin.add), true⟩ with
            | (av, r2) =>
              match addTuplesLoop xs ys { r2 with st :=
                  { r2.st with g := r2.st.g.installApply t av [xi, yi] } } with
              | Except.ok (rest, r4) => Except.ok (t :: rest, r4)
              | Except.error e => Except.error e
  | _, _, r => Except.ok ([], r)

/-- Handler of `add_tuples`. -/
def addTuplesH (r : RState) (_node : Nat) (env : Env Nat) :
    Except RErr (HRes × RState) :=
  match envList env "X" with
  | Except.error e => Except.error e
  | Except.ok xs =>
    match envList env "Y" with
    | Except.error e => Except.error e
    | Except.ok ys =>
      match addTuplesLoop xs ys r with
      | Except.error e => Except.error e
      | Except.ok (adds, r2) =>
        match alloc r2 ⟨NKind.value, some (MVal.bsym Builtin.mktuple), true⟩ with
        | (mkv, r3) => Except.ok (HRes.instOp mkv adds, r3)

/-- Handler of `multiply_by_one`: return `X`. -/
def multiplyByOneH (r : RState) (_node : Nat) (env : Env Nat) :
    Except RErr (HRes × RState) :=
  match envNode env "X" with
  | Except.error e => Except.error e
  | Except.ok x =>
    match atomId x with
    | Except.error e => Except.error e
    | Except.ok xi => Except.ok (HRes.repl xi, r)

/-- Handler of `take_index`: return `X[V.value]` (Python indexing: an
out-of-range or non-integer index raises; negative indices, which no
produced pattern yields, are treated as out of range). -/
def takeIndexH (r : RState) (_node : Nat) (env : Env Nat) :
    Except RErr (HRes × RState) :=
  match envList env "X" with
  | Except.error e => Except.error e
  | Except.ok xs =>
    match envNode env "V" with
    | Except.error e => Except.error e
    | Except.ok v =>
      match atomVal r.info v with
      | Except.error e => Except.error e
      | Except.ok (MVal.num i) =>
          if h : 0 ≤ i ∧ i.toNat < xs.length then
            match atomId (xs.get ⟨i.toNat, h.2⟩) with
            | Except.error e => Except.error e
            | Except.ok xi => Except.ok (HRes.repl xi, r)
          else Except.error RErr.stuck
      | Except.ok _ => Except.error RErr.stuck

/-- The loop of `J_switch`: wrap each branch operand in a fresh `J`
application. -/
def jSwitchLoop : List (Atom Nat) → RState → Except RErr (List Nat × RState)
  | [], r => Except.ok ([], r)
  | v :: rest, r =>
      match atomId v with
      | Except.error e => Except.error e
      | Except.ok vi =>
        match alloc r ⟨NKind.comp, none, true⟩ with
        | (t, r1) =>
          match alloc r1 ⟨NKind.value, some (MVal.bsym Builtin.J), true⟩ with
          | (jv, r2) =>
            match jSwitchLoop rest { r2 with st :=
                { r2.st with g := r2.st.g.installApply t jv [vi] } } with
            | Except.ok (ts, r4) => Except.ok (t :: ts, r4)
            | Except.error e => Except.error e

/-- Handler of `J_switch`. -/
def jSwitchH (r : RState) (_node : Nat) (env : Env Nat) :
    Except RErr (HRes × RState) :=
  match envNode env "X", envNode env "Y", envNode env "Z" with
  | Except.ok x, Except.ok y, Except.ok z =>
      (match jSwitchLoop [x, y, z] r with
      | Except.error e => Except.error e
      | Except.ok (ts, r2) =>
        match alloc r2 ⟨NKind.value, some (MVal.bsym Builtin.switch), true⟩ with
        | (sw, r3) => Except.ok (HRes.instOp sw ts, r3))
  | _, _, _ => Except.error RErr.stuck

/-- Handler of `Jinv_J_cancel` and `J_Jinv_cancel`: return `X`. -/
def cancelH (r : RState) (_node : Nat) (env : Env Nat) :
    Except RErr (HRes × RState) :=
  match envNode env "X" with
  | Except.error e => Except.error e
  | Except.ok x =>
    match atomId x with
    | Except.error e => Except.error e
    | Except.ok xi => Except.ok (HRes.repl xi, r)

/-- Handler of `call_partial`: `ApplyOperation(X, Y + Z)` over existing
nodes (no allocation). -/
def callPartialH (r : RState) (_node : Nat) (env : Env Nat) :
    Except RErr (HRes × RState) :=
  match envNode env "X", envList env "Y", envList env "Z" with
  | Except.ok x, Except.ok ys, Except.ok zs =>
      (match atomId x, ys.mapM atomId, zs.mapM atomId with
      | Except.ok xi, Except.ok yis, Except.ok zis =>
          Except.ok (HRes.instOp xi (yis ++ zis), r)
      | _, _, _ => Except.error RErr.stuck)
  | _, _, _ => Except.error RErr.stuck

/-- `IRLambda.value_to_node` for the evaluator\'s result: literals become a
fresh `IRValue` (whose tag is the raw literal, hence not rename-exempt);
`Function`/`Closure` results re-enter `Universe.acquire`, outside this
engine (stuck), and an unrecognized value raises. -/
def valueToNode (r : RState) : MVal → Except RErr (HRes × RState)
  | MVal.num n =>
      let (m, r2) := alloc r ⟨NKind.value, some (MVal.num n), false⟩
      Except.ok (HRes.repl m, r2)
  | MVal.str t =>
      let (m, r2) := alloc r ⟨NKind.value, some (MVal.str t), false⟩
      Except.ok (HRes.repl m, r2)
  | MVal.fone =>
      let (m, r2) := alloc r ⟨NKind.value, some MVal.fone, false⟩
      Except.ok (HRes.repl m, r2)
  | _ => Except.error RErr.stuck

/-- Handler of `eval_constant`.  The evaluator collaborator `eenv` is
modelled from the spec (the `EvaluationEnv` is not under `src/`): given the
function\'s concrete value and the arguments\' concrete values it returns a
concrete result or fails.  Folding the `partial` primitive itself is
refused (`return False`).  An evaluator failure is an exception the
handler does not catch. -/
def evalConstantH (eenv : MVal → List MVal → Except String MVal)
    (r : RState) (_node : Nat) (env : Env Nat) :
    Except RErr (HRes × RState) :=
  match envNode env "V1", envList env "V2" with
  | Except.ok f, Except.ok args =>
      (match atomVal r.info f with
      | Except.error e => Except.error e
      | Except.ok fv =>
        if fv = MVal.bsym Builtin.partialFn then Except.ok (HRes.noop false, r)
        else
          match args.mapM (atomVal r.info) with
          | Except.error e => Except.error e
          | Except.ok argvs =>
            match eenv fv argvs with
            | Except.error msg => Except.error (RErr.evalFail msg)
            | Except.ok res => valueToNode r res)
  | _, _ => Except.error RErr.stuck

/-- Handler of `drop_copy`: return `X`. -/
def dropCopyH (r : RState) (_node : Nat) (env : Env Nat) :
    Except RErr (HRes × RState) :=
  match envNode env "X" with
  | Except.error e => Except.error e
  | Except.ok x =>
    match atomId x with
    | Except.error e => Except.error e
    | Except.ok xi => Except.ok (HRes.repl xi, r)

/-- Handler of `eval_constant2`.  In the source its signature names `V1`
and `V2` although its pattern binds `L` and `V`, so whenever the pattern
matches, calling the handler raises a `TypeError` (unexpected keyword
argument); the keyword lookups below fail accordingly. -/
def evalConstant2H (_eenv : MVal → List MVal → Except String MVal)
    (_r : RState) (_node : Nat) (env : Env Nat) :
    Except RErr (HRes × RState) :=
  match envNode env "V1", envList env "V2" with
  | _, _ => Except.error RErr.stuck

/-- Append a node if absent (node insertion order of the `nx` graph). -/
def addIfAbsent (l : List Nat) (n : Nat) : List Nat :=
  if n ∈ l then l else l ++ [n]

/-- `list(graph.nodes)`: nodes in insertion order (each edge inserts its
endpoints; nodes added by `sync` carry no edges and no rule can fire on
them, so deriving the list from the edges is faithful for the engine). -/
def nodesOf (g : MGraph Nat) : List Nat :=
  g.edges.foldl (fun acc e => addIfAbsent (addIfAbsent acc e.1) e.2.2) []

/-- `{n: n.rename(self.gen) for n in g.nodes}` of `IRLambda.dup`: nodes
whose tag is a `ValueNode` or a global `Symbol` map to themselves;
every other node maps to a fresh copy with the same class and values. -/
def dupFold : List Nat → RState → List (Nat × Nat) →
    List (Nat × Nat) × RState
  | [], r, acc => (acc, r)
  | n :: rest, r, acc =>
      if (r.info n).gtag then dupFold rest r (acc ++ [(n, n)])
      else
        dupFold rest
          (alloc r ⟨(r.info n).kind, (r.info n).values, false⟩).2
          (acc ++ [(n, r.gen)])

/-- `corresp.setdefault(i, i.rename(self.gen))` over the inputs. -/
def dupInputs : List Nat → RState → List (Nat × Nat) →
    List (Nat × Nat) × RState
  | [], r, acc => (acc, r)
  | n :: rest, r, acc =>
      if acc.any (fun p => decide (p.1 = n)) then dupInputs rest r acc
      else if (r.info n).gtag then dupInputs rest r (acc ++ [(n, n)])
      else
        dupInputs rest
          (alloc r ⟨(r.info n).kind, (r.info n).values, false⟩).2
          (acc ++ [(n, r.gen)])

/-- Look a node up in the correspondence (unmapped nodes stay). -/
def corLookup (cor : List (Nat × Nat)) (n : Nat) : Nat :=
  ((cor.find? (fun p => decide (p.1 = n))).map Prod.snd).getD n

/-- `IRLambda.dup`: alpha-rename the whole graph, the inputs and the
output. -/
def dupLam (r : RState) (c : LamContent) : LamContent × RState :=
  let fold1 := dupFold (nodesOf ⟨c.edges⟩) r []
  let fold2 := dupInputs c.inputs fold1.2 fold1.1
  (⟨c.edges.map (fun e =>
      (corLookup fold2.1 e.1, e.2.1, corLookup fold2.1 e.2.2)),
    c.inputs.map (corLookup fold2.1), corLookup fold2.1 c.output⟩,
   fold2.2)

/-- `for input, arg in zip(f2.inputs, args): CopyOperation(arg).install(g,
input)`. -/
def inlineCopyInputs : List Nat → List (Atom Nat) → RState →
    Except RErr RState
  | input :: ins, arg :: args, r =>
      match atomId arg with
      | Except.error e => Except.error e
      | Except.ok ai =>
        match alloc r ⟨NKind.value, some (MVal.bsym Builtin.identity), true⟩ with
        | (iv, r1) =>
          inlineCopyInputs ins args { r1 with st :=
            { r1.st with g := r1.st.g.installApply input iv [ai] } }
  | _, _, r => Except.ok r

/-- Handler of `inline`: deep-copy the callee (`f.dup()`), splice the
copied edges into the caller, link the copied parameters to the actual
arguments via `Copy`, and link the call node to the copied output via
`Copy`. -/
def inlineH (r : RState) (node : Nat) (env : Env Nat) :
    Except RErr (HRes × RState) :=
  match envNode env "L", envList env "X" with
  | Except.ok l, Except.ok args =>
      (match atomId l with
      | Except.error e => Except.error e
      | Except.ok li =>
        match r.lams li with
        | none => Except.error RErr.stuck
        | some c =>
          match dupLam r c with
          | (c2, rd) =>
            match inlineCopyInputs c2.inputs args { rd with st :=
                { rd.st with g := c2.edges.foldl MGraph.addEdge rd.st.g } } with
            | Except.error e => Except.error e
            | Except.ok r3 =>
              match alloc r3
                  ⟨NKind.value, some (MVal.bsym Builtin.identity), true⟩ with
              | (iv, r4) =>
                Except.ok (HRes.noop true, { r4 with st :=
                  { r4.st with
                    g := r4.st.g.installApply node iv [c2.output] } }))
  | _, _ => Except.error RErr.stuck

/-- `PatternOpt.__call__`: match, and on a (non-empty — Python treats the
empty dict as no match) substitution run the handler; `True`/`False` are
returned as is, an `Operation` is installed in place, any other node
replaces the matched node.  Exceptions propagate. -/
def optCall (rule : Rule) (r : RState) (node : Nat) :
    Except RErr (Bool × RState) :=
  match matchPat r.info r.st.g 100 (Cand.one (Atom.node node))
      rule.pattern [] with
  | Except.error e => Except.error e
  | Except.ok none => Except.ok (false, r)
  | Except.ok (some env) =>
      if env.isEmpty then Except.ok (false, r)
      else
        match rule.handler r node env with
        | Except.error e => Except.error e
        | Except.ok (HRes.noop b, r2) => Except.ok (b, r2)
        | Except.ok (HRes.instOp fn args, r2) =>
            Except.ok (true, { r2 with st :=
              { r2.st with g := r2.st.g.installApply node fn args } })
        | Except.ok (HRes.repl m, r2) =>
            Except.ok (true, { r2 with st := replaceS r2.st node m })

/-- `for opt in all_patterns.values(): changes |= opt(self, n)`. -/
def runRules : List Rule → RState → Nat → Bool → Except RErr (Bool × RState)
  | [], r, _, ch => Except.ok (ch, r)
  | rule :: rest, r, node, ch =>
      match optCall rule r node with
      | Except.error e => Except.error e
      | Except.ok (b, r2) => runRules rest r2 node (ch || b)

/-- `for n in list(self.graph.nodes): ...` over a node snapshot. -/
def runNodes (rules : List Rule) :
    List Nat → RState → Bool → Except RErr (Bool × RState)
  | [], r, ch => Except.ok (ch, r)
  | n :: ns, r, ch =>
      match runRules rules r n ch with
      | Except.error e => Except.error e
      | Except.ok (ch2, r2) => runNodes rules ns r2 ch2

/-- `IRLambda.simplify`: apply every rule to every node of a snapshot of
the graph, reporting whether anything fired; an exception raised by a
handler (e.g. by the evaluator during constant folding) is not caught. -/
def simplifyR (rules : List Rule) (r : RState) : Except RErr (Bool × RState) :=
  runNodes rules (nodesOf r.st.g) r false

/-- `add_tuples`: `(add, (mktuple, X, ...), (mktuple, Y, ...))`. -/
def addTuplesRule : Rule :=
  ⟨Pat.tup [Pat.lit (MVal.bsym Builtin.add),
    Pat.tup [Pat.lit (MVal.bsym Builtin.mktuple), Pat.pv "X" Filt.plain,
      Pat.wild],
    Pat.tup [Pat.lit (MVal.bsym Builtin.mktuple), Pat.pv "Y" Filt.plain,
      Pat.wild]], addTuplesH⟩

/-- `multiply_by_one`: `(multiply, 1.0, X)`. -/
def multiplyByOneRule : Rule :=
  ⟨Pat.tup [Pat.lit (MVal.bsym Builtin.multiply), Pat.lit MVal.fone,
    Pat.pv "X" Filt.plain], multiplyByOneH⟩

/-- `take_index`: `(index, (mktuple, X, ...), V)`. -/
def takeIndexRule : Rule :=
  ⟨Pat.tup [Pat.lit (MVal.bsym Builtin.index),
    Pat.tup [Pat.lit (MVal.bsym Builtin.mktuple), Pat.pv "X" Filt.plain,
      Pat.wild],
    Pat.pv "V" Filt.hasVal], takeIndexH⟩

/-- `J_switch`: `(J, (switch, X, Y, Z))`. -/
def jSwitchRule : Rule :=
  ⟨Pat.tup [Pat.lit (MVal.bsym Builtin.J),
    Pat.tup [Pat.lit (MVal.bsym Builtin.switch), Pat.pv "X" Filt.plain,
      Pat.pv "Y" Filt.plain, Pat.pv "Z" Filt.plain]], jSwitchH⟩

/-- `Jinv_J_cancel`: `(Jinv, (J, X))`. -/
def jinvJRule : Rule :=
  ⟨Pat.tup [Pat.lit (MVal.bsym Builtin.Jinv),
    Pat.tup [Pat.lit (MVal.bsym Builtin.J), Pat.pv "X" Filt.plain]], cancelH⟩

/-- `J_Jinv_cancel`: `(J, (Jinv, X))`. -/
def jJinvRule : Rule :=
  ⟨Pat.tup [Pat.lit (MVal.bsym Builtin.J),
    Pat.tup [Pat.lit (MVal.bsym Builtin.Jinv), Pat.pv "X" Filt.plain]],
   cancelH⟩

/-- `inline`: `(L, X, ...)`. -/
def inlineRule : Rule :=
  ⟨Pat.tup [Pat.pv "L" Filt.isLam, Pat.pv "X" Filt.plain, Pat.wild], inlineH⟩

/-- `call_partial`: `((partial, X, Y, ...), Z, ...)`. -/
def callPartialRule : Rule :=
  ⟨Pat.tup [Pat.tup [Pat.lit (MVal.bsym Builtin.partialFn),
      Pat.pv "X" Filt.plain, Pat.pv "Y" Filt.plain, Pat.wild],
    Pat.pv "Z" Filt.plain, Pat.wild], callPartialH⟩

/-- `eval_constant`: `(V1, V2, ...)`. -/
def evalConstantRule (eenv : MVal → List MVal → Except String MVal) : Rule :=
  ⟨Pat.tup [Pat.pv "V1" Filt.hasVal, Pat.pv "V2" Filt.hasVal, Pat.wild],
   evalConstantH eenv⟩

/-- `drop_copy`: `(identity, X)`. -/
def dropCopyRule : Rule :=
  ⟨Pat.tup [Pat.lit (MVal.bsym Builtin.identity), Pat.pv "X" Filt.plain],
   dropCopyH⟩

/-- `eval_constant2`: `(L, V, ...)`. -/
def evalConstant2Rule (eenv : MVal → List MVal → Except String MVal) : Rule :=
  ⟨Pat.tup [Pat.pv "L" Filt.isLam, Pat.pv "V" Filt.hasVal, Pat.wild],
   evalConstant2H eenv⟩

/-- `all_patterns`, in registration (decoration) order. -/
def allPatterns (eenv : MVal → List MVal → Except String MVal) : List Rule :=
  [addTuplesRule, multiplyByOneRule, takeIndexRule, jSwitchRule,
   jinvJRule, jJinvRule, inlineRule, callPartialRule,
   evalConstantRule eenv, dropCopyRule, evalConstant2Rule eenv]

/-- C3 data: node `0` applies the `divide` builtin (node `1`, a concrete
value) to the concrete literals `1` (node `2`) and `0` (node `3`) — an
application whose function and arguments all resolve to concrete
literals. -/
def infoC3 : Nat → NInfo := fun n =>
  match n with
  | 1 => ⟨NKind.value, some (MVal.bsym Builtin.divide), true⟩
  | 2 => ⟨NKind.value, some (MVal.num 1), false⟩
  | 3 => ⟨NKind.value, some (MVal.num 0), false⟩
  | _ => ⟨NKind.comp, none, false⟩

/-- C3 state: the graph of the single application. -/
def rC3 : RState :=
  ⟨⟨⟨[(0, Role.FN, 1), (0, Role.IN 0, 2), (0, Role.IN 1, 3)]⟩, 0⟩,
   infoC3, fun _ => none, 100⟩

/-- An external evaluator that fails on these arguments (dividing by
zero). -/
def eenvFail : MVal → List MVal → Except String MVal :=
  fun _ _ => Except.error "ZeroDivisionError"

/-- C3: running `simplify` with the full built-in rule registry on an
application of constant `divide(1, 0)` whose evaluation fails does *not*
treat the failure as "rule not applicable": neither `eval_constant` nor
`PatternOpt.__call__` nor `simplify` catches the evaluator\'s exception,
so it propagates out of `simplify`, contradicting the spec\'s requirement
that evaluator failure be treated as no-match with the application left in
place. -/
theorem eval_constant_exception_escapes :
    simplifyR (allPatterns eenvFail) rC3
      = Except.error (RErr.evalFail "ZeroDivisionError") := rfl

/-! ## Exact shape of installed producers -/

/-- The `IN(i)` edges installed for an argument list starting at index
`i`. -/
def inEdgeList (node : ν) : Nat → List ν → List (GEdge ν)
  | _, [] => []
  | i, a :: rest => (node, Role.IN i, a) :: inEdgeList node (i + 1) rest

/-- The positional-input dict built by `sync` from those edges. -/
def idxList (ν : Type) : Nat → List ν → List (Nat × ν)
  | _, [] => []
  | i, a :: rest => (i, a) :: idxList ν (i + 1) rest

theorem addArgs_edges {node : ν} :
    ∀ (args : List ν) (i : Nat) (g : MGraph ν),
      (∀ a j, i ≤ j → (node, Role.IN j, a) ∉ g.edges) →
      (g.addArgs node i args).edges = g.edges ++ inEdgeList node i args := by
  intro args
  induction args with
  | nil => intro i g _; simp [MGraph.addArgs, inEdgeList]
  | cons a rest ih =>
      intro i g h
      unfold MGraph.addArgs
      have hnot : (node, Role.IN i, a) ∉ g.edges := h a i (le_refl i)
      rw [show (g.addEdge (node, Role.IN i, a))
          = ⟨g.edges ++ [(node, Role.IN i, a)]⟩ from by
        unfold MGraph.addEdge; rw [if_neg hnot]]
      rw [ih (i + 1) _ ?_]
      · simp [inEdgeList]
      · intro a2 j hj hmem
        rcases List.mem_append.1 hmem with h1 | h1
        · exact h a2 j (by omega) h1
        · have h2 := List.mem_singleton.1 h1
          simp only [Prod.mk.injEq] at h2
          have h3 := h2.2.1
          cases h3
          omega

theorem installApply_edges (g : MGraph ν) (node fn : ν) (args : List ν) :
    (g.installApply node fn args).edges
      = (g.clearOut node).edges ++
        (node, Role.FN, fn) :: inEdgeList node 0 args := by
  unfold MGraph.installApply
  have h1 : (node, Role.FN, fn) ∉ (g.clearOut node).edges := by
    intro hm
    unfold MGraph.clearOut at hm
    have := (List.mem_filter.1 hm).2
    simp at this
  rw [show ((g.clearOut node).addEdge (node, Role.FN, fn))
      = ⟨(g.clearOut node).edges ++ [(node, Role.FN, fn)]⟩ from by
    unfold MGraph.addEdge; rw [if_neg h1]]
  rw [addArgs_edges args 0 _ ?_]
  · simp
  · intro a j _ hmem
    rcases List.mem_append.1 hmem with h2 | h2
    · unfold MGraph.clearOut at h2
      have := (List.mem_filter.1 h2).2
      simp at this
    · have h3 := List.mem_singleton.1 h2
      simp only [Prod.mk.injEq] at h3
      cases h3.2.1

theorem inEdgeList_filter_self (node : ν) :
    ∀ (args : List ν) (i : Nat),
      (inEdgeList node i args).filter (fun e => decide (e.1 = node))
        = inEdgeList node i args := by
  intro args
  induction args with
  | nil => intro i; simp [inEdgeList]
  | cons a rest ih => intro i; simp [inEdgeList, ih]

theorem inEdgeList_filter_other {node n : ν} (hne : ¬ n = node) :
    ∀ (args : List ν) (i : Nat),
      (inEdgeList node i args).filter (fun e => decide (e.1 = n)) = [] := by
  intro args
  induction args with
  | nil => intro i; simp [inEdgeList]
  | cons a rest ih =>
      intro i
      unfold inEdgeList
      rw [List.filter_cons_of_neg (by simpa using fun h => hne h.symm)]
      exact ih (i + 1)

theorem outEdges_installApply_self (g : MGraph ν) (node fn : ν)
    (args : List ν) :
    (g.installApply node fn args).outEdges node
      = (node, Role.FN, fn) :: inEdgeList node 0 args := by
  unfold MGraph.outEdges
  rw [installApply_edges, List.filter_append]
  have hcl : (g.clearOut node).edges.filter (fun e => decide (e.1 = node))
      = [] := by
    rw [List.eq_nil_iff_forall_not_mem]
    intro e he
    have h1 := List.mem_filter.1 he
    have h2 := (List.mem_filter.1 h1.1).2
    simp only [decide_eq_true_eq] at h1 h2
    exact h2 h1.2
  rw [hcl]
  simp only [List.nil_append]
  rw [List.filter_cons_of_pos (by simp)]
  rw [inEdgeList_filter_self]

theorem outEdges_installApply_other {g : MGraph ν} {node n fn : ν}
    {args : List ν} (hne : ¬ n = node) :
    (g.installApply node fn args).outEdges n = g.outEdges n := by
  unfold MGraph.outEdges
  rw [installApply_edges, List.filter_append]
  rw [List.filter_cons_of_neg (by simpa using fun h => hne h.symm)]
  rw [inEdgeList_filter_other hne, List.append_nil]
  unfold MGraph.clearOut
  rw [List.filter_filter]
  apply List.filter_congr
  intro e _
  by_cases h1 : e.1 = n
  · have h2 : ¬ e.1 = node := by rw [h1]; exact hne
    simp [h1, h2, hne]
  · simp [h1]

theorem foldl_syncStep_inEdgeList {node : ν} :
    ∀ (args : List ν) (i : Nat) (acc : SyncAcc ν),
      (∀ p ∈ acc.inputs, p.1 < i) →
      (inEdgeList node i args).foldl syncStep acc
        = ⟨acc.fn?, acc.cl?, acc.cp?, acc.inputs ++ idxList ν i args,
           acc.elems, acc.idx?⟩ := by
  intro args
  induction args with
  | nil => intro i acc _; simp [inEdgeList, idxList]
  | cons a rest ih =>
      intro i acc hlt
      unfold inEdgeList
      rw [List.foldl_cons]
      have hstep : syncStep acc (node, Role.IN i, a)
          = { acc with inputs := acc.inputs ++ [(i, a)] } := by
        unfold syncStep updAssoc
        simp only
        rw [if_neg ?_]
        intro hany
        rcases List.any_eq_true.1 hany with ⟨p, hp, hdec⟩
        have := of_decide_eq_true hdec
        have := hlt p hp
        omega
      rw [hstep, ih (i + 1) _ ?_]
      · simp [idxList]
      · intro p hp
        rcases List.mem_append.1 hp with h1 | h1
        · have := hlt p h1
          omega
        · have := List.mem_singleton.1 h1
          rw [this]
          omega

theorem syncOf_installApply (g : MGraph ν) (node fn : ν) (args : List ν) :
    syncOf (g.installApply node fn args) node
      = ⟨some fn, none, none, idxList ν 0 args, [], none⟩ := by
  unfold syncOf
  rw [outEdges_installApply_self, List.foldl_cons]
  rw [show syncStep {} (node, Role.FN, fn)
      = ⟨some fn, none, none, [], [], none⟩ from rfl]
  rw [foldl_syncStep_inEdgeList args 0 _ (by simp)]
  simp

theorem idxList_length : ∀ (args : List ν) (i : Nat),
    (idxList ν i args).length = args.length := by
  intro args
  induction args with
  | nil => intro i; rfl
  | cons a rest ih => intro i; simp [idxList, ih]

theorem mapM_option_map {α β γ : Type} (g : α → β) (f : β → Option γ) :
    ∀ l : List α, (l.map g).mapM f = l.mapM (fun a => f (g a)) := by
  intro l
  induction l with
  | nil => rfl
  | cons a rest ih =>
      rw [List.map_cons, List.mapM_cons, List.mapM_cons, ih]

theorem mapM_option_congr {α β : Type} (f g : α → Option β) :
    ∀ (l : List α), (∀ a ∈ l, f a = g a) → l.mapM f = l.mapM g := by
  intro l
  induction l with
  | nil => intro _; rfl
  | cons a rest ih =>
      intro h
      rw [List.mapM_cons, List.mapM_cons, h a (List.mem_cons_self _ _),
        ih (fun b hb => h b (List.mem_cons_of_mem _ hb))]

theorem mkArgs_idxList : ∀ (args : List ν) (i : Nat),
    (List.range args.length).mapM
        (fun j => ((idxList ν i args).find?
          (fun p => decide (p.1 = i + j))).map Prod.snd)
      = some args := by
  intro args
  induction args with
  | nil => intro i; rfl
  | cons a rest ih =>
      intro i
      have hlen : (a :: rest).length = rest.length + 1 := rfl
      rw [hlen, List.range_succ_eq_map, List.mapM_cons]
      have h0 : ((idxList ν i (a :: rest)).find?
          (fun p => decide (p.1 = i + 0))).map Prod.snd = some a := by
        unfold idxList
        rw [List.find?_cons_of_pos _ (by simp)]
        rfl
      rw [h0]
      have hmap : (List.map (· + 1) (List.range rest.length)).mapM
          (fun j => ((idxList ν i (a :: rest)).find?
            (fun p => decide (p.1 = i + j))).map Prod.snd)
          = (List.range rest.length).mapM
            (fun j => ((idxList ν (i + 1) rest).find?
              (fun p => decide (p.1 = (i + 1) + j))).map Prod.snd) := by
        rw [mapM_option_map]
        apply mapM_option_congr
        intro j _
        show ((idxList ν i (a :: rest)).find?
            (fun p => decide (p.1 = i + (j + 1)))).map Prod.snd = _
        have harith : i + (j + 1) = (i + 1) + j := by omega
        rw [show idxList ν i (a :: rest) = (i, a) :: idxList ν (i + 1) rest
          from rfl]
        rw [List.find?_cons_of_neg _ (by simp)]
        rw [harith]
      rw [hmap, ih (i + 1)]
      rfl

theorem mkArgs_idxList_zero (args : List ν) :
    mkArgs (idxList ν 0 args) = some args := by
  unfold mkArgs
  rw [idxList_length]
  have := mkArgs_idxList args 0
  rw [← this]
  apply mapM_option_congr
  intro j _
  have harith : (0 : Nat) + j = j := by omega
  rw [harith]

/-- Installing `ApplyOperation(fn, args)` on a node makes its canonical
Operation exactly `Apply(fn, args)`. -/
theorem productor_installApply (g : MGraph ν) (node fn : ν) (args : List ν) :
    productorM (g.installApply node fn args) node
      = Except.ok (some (COp.apply fn args)) := by
  unfold productorM
  rw [syncOf_installApply]
  unfold productorCore countHeads
  simp only [Option.isSome_some, Option.isSome_none, List.isEmpty_nil]
  rw [if_neg (by simp)]
  rw [dif_pos trivial, mkArgs_idxList_zero]
  rfl

/-- `productor` only looks at the node\'s outgoing edges. -/
theorem productorM_congr {g1 g2 : MGraph ν} {n : ν}
    (h : g1.outEdges n = g2.outEdges n) : productorM g1 n = productorM g2 n := by
  unfold productorM syncOf
  rw [h]

theorem addTuplesLoop_cons (x y : Nat) (xs ys : List (Atom Nat)) (r : RState) :
    addTuplesLoop (Atom.node x :: xs) (Atom.node y :: ys) r
      = (match addTuplesLoop xs ys
          { st := { g := r.st.g.installApply r.gen (r.gen + 1) [x, y],
                    output := r.st.output },
            info := fun m => if m = r.gen + 1
              then ⟨NKind.value, some (MVal.bsym Builtin.add), true⟩
              else if m = r.gen then ⟨NKind.comp, none, true⟩
              else r.info m,
            lams := r.lams,
            gen := r.gen + 2 } with
        | Except.ok (rest, r4) => Except.ok (r.gen :: rest, r4)
        | Except.error e => Except.error e) := rfl

theorem addTuplesLoop_spec :
    ∀ (xs ys : List Nat) (r : RState), ∃ r2 : RState,
      addTuplesLoop (xs.map Atom.node) (ys.map Atom.node) r
        = Except.ok ((List.range (min xs.length ys.length)).map
            (fun i => r.gen + 2 * i), r2)
      ∧ r2.gen = r.gen + 2 * min xs.length ys.length
      ∧ (∀ n, n < r.gen → r2.st.g.outEdges n = r.st.g.outEdges n)
      ∧ (∀ n, n < r.gen → r2.info n = r.info n)
      ∧ r2.st.output = r.st.output
      ∧ (∀ i (hi : i < min xs.length ys.length),
          productorM r2.st.g (r.gen + 2 * i)
            = Except.ok (some (COp.apply (r.gen + 2 * i + 1)
                [xs.get ⟨i, by omega⟩, ys.get ⟨i, by omega⟩]))
          ∧ (r2.info (r.gen + 2 * i + 1)).values
              = some (MVal.bsym Builtin.add)) := by
  intro xs
  induction xs with
  | nil =>
      intro ys r
      refine ⟨r, ?_, by simp, fun n _ => rfl, fun n _ => rfl, rfl,
        fun i hi => by simp at hi⟩
      simp [addTuplesLoop]
  | cons x xs ih =>
      intro ys r
      cases ys with
      | nil =>
          refine ⟨r, ?_, by simp, fun n _ => rfl, fun n _ => rfl, rfl,
            fun i hi => by simp at hi⟩
          simp [addTuplesLoop]
      | cons y ys =>
          rcases ih ys
            { st := { g := r.st.g.installApply r.gen (r.gen + 1) [x, y],
                      output := r.st.output },
              info := fun m => if m = r.gen + 1
                then ⟨NKind.value, some (MVal.bsym Builtin.add), true⟩
                else if m = r.gen then ⟨NKind.comp, none, true⟩
                else r.info m,
              lams := r.lams,
              gen := r.gen + 2 } with
            ⟨r2, hrun, hgen, hout, hinfo, houtp, hprod⟩
          simp only at hrun hgen hout hinfo houtp hprod
          have hlen : min (x :: xs).length (y :: ys).length
              = min xs.length ys.length + 1 := by
            simp only [List.length_cons]
            omega
          refine ⟨r2, ?_, ?_, ?_, ?_, ?_, ?_⟩
          · have hlist : (List.range (min (x :: xs).length
                (y :: ys).length)).map (fun i => r.gen + 2 * i)
                = r.gen :: (List.range (min xs.length ys.length)).map
                  (fun i => r.gen + 2 + 2 * i) := by
              rw [hlen, List.range_succ_eq_map, List.map_cons, List.map_map]
              refine List.cons_eq_cons.mpr ⟨?_, ?_⟩
              · show r.gen + 2 * 0 = r.gen
                omega
              · apply List.map_congr_left
                intro i _
                show r.gen + 2 * (i + 1) = r.gen + 2 + 2 * i
                omega
            rw [show (x :: xs).map Atom.node = Atom.node x :: xs.map Atom.node
                from rfl,
              show (y :: ys).map Atom.node = Atom.node y :: ys.map Atom.node
                from rfl,
              addTuplesLoop_cons, hrun, hlist]
          · rw [hgen]
            simp only [List.length_cons]
            omega
          · intro n hn
            rw [hout n (by omega)]
            exact outEdges_installApply_other (by omega)
          · intro n hn
            rw [hinfo n (by omega)]
            rw [if_neg (by omega), if_neg (by omega)]
          · exact houtp
          · intro i hi
            cases i with
            | zero =>
                constructor
                · have h0 : r.gen + 2 * 0 = r.gen := by omega
                  have h1 : r.gen + 2 * 0 + 1 = r.gen + 1 := by omega
                  rw [h0, h1]
                  rw [productorM_congr (hout r.gen (by omega))]
                  exact productor_installApply _ _ _ _
                · have h1 : r.gen + 2 * 0 + 1 = r.gen + 1 := by omega
                  rw [h1, hinfo (r.gen + 1) (by omega)]
                  rw [if_pos rfl]
            | succ j =>
                have hj : j < min xs.length ys.length := by
                  simp only [List.length_cons] at hi
                  omega
                have e1 : r.gen + 2 * (j + 1) = r.gen + 2 + 2 * j := by omega
                have e2 : r.gen + 2 * (j + 1) + 1 = r.gen + 2 + 2 * j + 1 := by
                  omega
                constructor
                · rw [e1]
                  exact (hprod j hj).1
                · rw [e2]
                  exact (hprod j hj).2


/-- C10: when `add_tuples` matches `add` applied to two tuple nodes —
binding the element lists `xs` and `ys` — it fires and rewrites the node in
place into a tuple of fresh element-wise additions whose length is the
*shorter* arity (`zip` truncation): surplus elements of the longer tuple
are silently dropped rather than the rule refusing to fire. -/
theorem add_tuples_truncates
    (r : RState) (node : Nat) (env : Env Nat) (xs ys : List Nat)
    (hmatch : matchPat r.info r.st.g 100 (Cand.one (Atom.node node))
        addTuplesRule.pattern [] = Except.ok (some env))
    (hX : envLookup env "X" = some (Bind.many (xs.map Atom.node)))
    (hY : envLookup env "Y" = some (Bind.many (ys.map Atom.node)))
    (hnode : node < r.gen) :
    ∃ r2 : RState,
      optCall addTuplesRule r node = Except.ok (true, r2)
      ∧ productorM r2.st.g node = Except.ok (some (COp.apply
          (r.gen + 2 * min xs.length ys.length)
          ((List.range (min xs.length ys.length)).map
            (fun i => r.gen + 2 * i))))
      ∧ (r2.info (r.gen + 2 * min xs.length ys.length)).values
          = some (MVal.bsym Builtin.mktuple)
      ∧ ∀ i (hi : i < min xs.length ys.length),
          productorM r2.st.g (r.gen + 2 * i)
            = Except.ok (some (COp.apply (r.gen + 2 * i + 1)
                [xs.get ⟨i, by omega⟩, ys.get ⟨i, by omega⟩]))
          ∧ (r2.info (r.gen + 2 * i + 1)).values
              = some (MVal.bsym Builtin.add) := by
  rcases addTuplesLoop_spec xs ys r with
    ⟨rm, hrun, hgen, hout, hinfo, _houtp, hprod⟩
  set L := (List.range (min xs.length ys.length)).map
    (fun i => r.gen + 2 * i) with hL
  have henv : env.isEmpty = false := by
    cases env with
    | nil => unfold envLookup at hX; simp at hX
    | cons p rest => rfl
  have hEX : envList env "X" = Except.ok (xs.map Atom.node) := by
    unfold envList; rw [hX]
  have hEY : envList env "Y" = Except.ok (ys.map Atom.node) := by
    unfold envList; rw [hY]
  have hcall : optCall addTuplesRule r node = Except.ok (true,
      { st := { g := rm.st.g.installApply node rm.gen L,
                output := rm.st.output },
        info := fun m => if m = rm.gen
          then ⟨NKind.value, some (MVal.bsym Builtin.mktuple), true⟩
          else rm.info m,
        lams := rm.lams, gen := rm.gen + 1 }) := by
    unfold optCall
    simp only [hmatch]
    rw [if_neg (by simp [henv])]
    show (match addTuplesH r node env with
      | Except.error e => Except.error e
      | Except.ok (HRes.noop b, r2) => Except.ok (b, r2)
      | Except.ok (HRes.instOp fn args, r2) =>
          Except.ok (true, { r2 with st :=
            { r2.st with g := r2.st.g.installApply node fn args } })
      | Except.ok (HRes.repl m, r2) =>
          Except.ok (true, { r2 with st := replaceS r2.st node m })) = _
    unfold addTuplesH
    simp only [hEX, hEY, hrun]
    rfl
  refine ⟨_, hcall, ?_, ?_, ?_⟩
  · show productorM (rm.st.g.installApply node rm.gen L) node = _
    rw [← hgen]
    exact productor_installApply _ _ _ _
  · show (if r.gen + 2 * min xs.length ys.length = rm.gen
        then (⟨NKind.value, some (MVal.bsym Builtin.mktuple), true⟩ : NInfo)
        else rm.info (r.gen + 2 * min xs.length ys.length)).values = _
    rw [if_pos (by omega)]
  · intro i hi
    constructor
    · show productorM (rm.st.g.installApply node rm.gen L) (r.gen + 2 * i) = _
      rw [productorM_congr (outEdges_installApply_other (by omega))]
      exact (hprod i hi).1
    · show (if r.gen + 2 * i + 1 = rm.gen
          then (⟨NKind.value, some (MVal.bsym Builtin.mktuple), true⟩ : NInfo)
          else rm.info (r.gen + 2 * i + 1)).values = _
      rw [if_neg (by omega)]
      exact (hprod i hi).2

/-- C10 witness data: node `0` is `add` (node `1`) applied to the 2-tuple
node `2` (`mktuple` node `4` over inputs `10`, `11`) and the 3-tuple node
`3` (`mktuple` node `5` over inputs `50`, `51`, `52`). -/
def c10info : Nat → NInfo := fun k =>
  if k = 1 then ⟨NKind.value, some (MVal.bsym Builtin.add), true⟩
  else if k = 4 then ⟨NKind.value, some (MVal.bsym Builtin.mktuple), true⟩
  else if k = 5 then ⟨NKind.value, some (MVal.bsym Builtin.mktuple), true⟩
  else if 10 ≤ k then ⟨NKind.input, none, false⟩
  else ⟨NKind.comp, none, false⟩

/-- C10 witness state, built by installing the three applications. -/
def rC10 : RState :=
  { st := ⟨((((⟨[]⟩ : MGraph Nat).installApply 2 4 [10, 11]).installApply
        3 5 [50, 51, 52]).installApply 0 1 [2, 3]), 0⟩,
    info := c10info, lams := fun _ => none, gen := 1000 }

/-- C10 witness: arities 2 and 3 — the rule fires and produces a 2-tuple of
fresh additions. -/
theorem add_tuples_truncates_witness :
    ∃ r2 : RState, optCall addTuplesRule rC10 0 = Except.ok (true, r2)
      ∧ productorM r2.st.g 0
          = Except.ok (some (COp.apply 1004 [1000, 1002])) := by
  rcases add_tuples_truncates rC10 0
    [("X", Bind.many [Atom.node 10, Atom.node 11]),
     ("Y", Bind.many [Atom.node 50, Atom.node 51, Atom.node 52])]
    [10, 11] [50, 51, 52] rfl rfl rfl (by decide) with ⟨r2, h1, h2, _h3, _h4⟩
  refine ⟨r2, h1, ?_⟩
  rw [h2]
  rfl

/-! ## Inlining hygiene: `IRLambda.dup` -/

theorem dupFold_spec (r0 : RState) :
    ∀ (ns : List Nat) (r : RState) (acc : List (Nat × Nat)),
      r0.gen ≤ r.gen →
      (∀ n ∈ ns, n < r0.gen) →
      (∀ n ∈ ns, r.info n = r0.info n) →
      ∃ (new : List (Nat × Nat)) (r' : RState),
        dupFold ns r acc = (acc ++ new, r')
        ∧ r'.st = r.st ∧ r'.lams = r.lams ∧ r.gen ≤ r'.gen
        ∧ (∀ k, k < r.gen → r'.info k = r.info k)
        ∧ new.map Prod.fst = ns
        ∧ (∀ p ∈ new,
            ((r0.info p.1).gtag = true ∧ p.2 = p.1 ∧ p.1 < r0.gen)
            ∨ ((r0.info p.1).gtag = false ∧ r.gen ≤ p.2 ∧ p.2 < r'.gen))
        ∧ (∀ p ∈ new, ∀ q ∈ new, p.2 = q.2 → p.1 = q.1) := by
  intro ns
  induction ns with
  | nil =>
      intro r acc _ _ _
      exact ⟨[], r, by simp [dupFold], rfl, rfl, le_refl _,
        fun k _ => rfl, rfl, fun p hp => absurd hp (List.not_mem_nil p),
        fun p hp => absurd hp (List.not_mem_nil p)⟩
  | cons n ns ih =>
      intro r acc hle hb hinf
      have hn : n < r0.gen := hb n (List.mem_cons_self _ _)
      have hinfn : r.info n = r0.info n := hinf n (List.mem_cons_self _ _)
      by_cases hg : (r.info n).gtag = true
      · rcases ih r (acc ++ [(n, n)]) hle
          (fun m hm => hb m (List.mem_cons_of_mem _ hm))
          (fun m hm => hinf m (List.mem_cons_of_mem _ hm)) with
          ⟨new, r', heq, hst, hlams, hgen, hik, hkeys, hdich, hinj⟩
        refine ⟨(n, n) :: new, r', ?_, hst, hlams, hgen, hik, ?_, ?_, ?_⟩
        · rw [show dupFold (n :: ns) r acc = dupFold ns r (acc ++ [(n, n)])
            from by conv_lhs => rw [dupFold]
                    rw [if_pos hg]]
          rw [heq, List.append_assoc]
          rfl
        · simp [hkeys]
        · intro p hp
          rcases List.mem_cons.1 hp with rfl | hp
          · exact Or.inl ⟨by rw [← hinfn]; exact hg, rfl, hn⟩
          · exact hdich p hp
        · intro p hp q hq hv
          rcases List.mem_cons.1 hp with rfl | hp <;>
            rcases List.mem_cons.1 hq with rfl | hq
          · rfl
          · rcases hdich q hq with ⟨_, hq2, _⟩ | ⟨_, hq2, _⟩
            · simp only at hv
              rw [hv, hq2]
            · exfalso
              simp only at hv
              omega
          · rcases hdich p hp with ⟨_, hp2, _⟩ | ⟨_, hp2, _⟩
            · simp only at hv
              rw [← hv, hp2]
            · exfalso
              simp only at hv
              omega
          · exact hinj p hp q hq hv
      · have hg2 : (r.info n).gtag = false := by
          rcases hb2 : (r.info n).gtag with _ | _
          · rfl
          · exact absurd hb2 hg
        have hstep : dupFold (n :: ns) r acc
            = dupFold ns
              (alloc r ⟨(r.info n).kind, (r.info n).values, false⟩).2
              (acc ++ [(n, r.gen)]) := by
          conv_lhs => rw [dupFold]
          rw [if_neg (by rw [hg2]; simp)]
        rcases ih (alloc r ⟨(r.info n).kind, (r.info n).values, false⟩).2
          (acc ++ [(n, r.gen)]) (by simp only [alloc]; omega)
          (fun m hm => hb m (List.mem_cons_of_mem _ hm))
          (fun m hm => by
            simp only [alloc]
            rw [if_neg (by have := hb m (List.mem_cons_of_mem _ hm); omega)]
            exact hinf m (List.mem_cons_of_mem _ hm)) with
          ⟨new, r', heq, hst, hlams, hgen, hik, hkeys, hdich, hinj⟩
        dsimp only [alloc] at hst hlams hgen hik hdich
        refine ⟨(n, r.gen) :: new, r', ?_, hst, hlams, by omega, ?_, ?_, ?_, ?_⟩
        · rw [hstep, heq, List.append_assoc]
          rfl
        · intro k hk
          rw [hik k (by omega)]
          rw [if_neg (by omega)]
        · simp [hkeys]
        · intro p hp
          rcases List.mem_cons.1 hp with rfl | hp
          · refine Or.inr ⟨by rw [← hinfn]; exact hg2, le_refl _, by omega⟩
          · rcases hdich p hp with ⟨h1, h2, h3⟩ | ⟨h1, h2, h3⟩
            · exact Or.inl ⟨h1, h2, h3⟩
            · exact Or.inr ⟨h1, by omega, h3⟩
        · intro p hp q hq hv
          rcases List.mem_cons.1 hp with rfl | hp <;>
            rcases List.mem_cons.1 hq with rfl | hq
          · rfl
          · rcases hdich q hq with ⟨_, hq2, hq3⟩ | ⟨_, hq2, _⟩
            · exfalso
              simp only at hv
              have := hb q.1 (List.mem_cons_of_mem _
                (by rw [← hkeys]; exact List.mem_map_of_mem Prod.fst hq))
              omega
            · exfalso
              simp only at hv
              omega
          · rcases hdich p hp with ⟨_, hp2, hp3⟩ | ⟨_, hp2, _⟩
            · exfalso
              simp only at hv
              have := hb p.1 (List.mem_cons_of_mem _
                (by rw [← hkeys]; exact List.mem_map_of_mem Prod.fst hp))
              omega
            · exfalso
              simp only at hv
              omega
          · exact hinj p hp q hq hv

/-- `addIfAbsent` keeps the node list duplicate-free. -/
theorem addIfAbsent_nodup (l : List Nat) (n : Nat) (h : l.Nodup) :
    (addIfAbsent l n).Nodup := by
  unfold addIfAbsent
  by_cases hm : n ∈ l
  · rw [if_pos hm]; exact h
  · rw [if_neg hm]
    simp [List.nodup_append, h, hm]

/-- `list(graph.nodes)` never repeats a node. -/
theorem nodesOf_nodup (g : MGraph Nat) : (nodesOf g).Nodup := by
  unfold nodesOf
  suffices h : ∀ (es : List (GEdge Nat)) (acc : List Nat), acc.Nodup →
      (es.foldl (fun acc e => addIfAbsent (addIfAbsent acc e.1) e.2.2)
        acc).Nodup by
    exact h g.edges [] List.nodup_nil
  intro es
  induction es with
  | nil => intro acc h; exact h
  | cons e es ih =>
      intro acc h
      exact ih _ (addIfAbsent_nodup _ _ (addIfAbsent_nodup _ _ h))

/-- On an association list with distinct keys, `corLookup` returns the
stored value of a present pair. -/
theorem corLookup_mem : ∀ (l : List (Nat × Nat)),
    (l.map Prod.fst).Nodup → ∀ p ∈ l, corLookup l p.1 = p.2
  | [], _, p, hp => absurd hp (List.not_mem_nil p)
  | q :: l, hnd, p, hp => by
      rcases List.mem_cons.1 hp with rfl | hp
      · unfold corLookup
        rw [List.find?_cons_of_pos _ (by simp)]
        rfl
      · have hq : ¬ q.1 = p.1 := by
          intro h
          have h1 : q.1 ∉ l.map Prod.fst := (List.nodup_cons.1 hnd).1
          exact h1 (h ▸ List.mem_map_of_mem Prod.fst hp)
        have ht := corLookup_mem l (List.nodup_cons.1 hnd).2 p hp
        unfold corLookup at ht ⊢
        rw [List.find?_cons_of_neg _ (by simp [hq])]
        exact ht

/-- `corresp.setdefault(i, i.rename(self.gen))` over the inputs: every
input not already in the correspondence gets exactly one entry — itself
when `rename` is the identity on it, a fresh id otherwise — and the value
map stays injective with distinct keys. -/
theorem dupInputs_spec (r0 : RState) :
    ∀ (ns : List Nat) (r : RState) (acc : List (Nat × Nat)),
      r0.gen ≤ r.gen →
      (∀ n ∈ ns, n < r0.gen) →
      (∀ n ∈ ns, r.info n = r0.info n) →
      (∀ p ∈ acc, ((r0.info p.1).gtag = true ∧ p.2 = p.1 ∧ p.1 < r0.gen)
          ∨ ((r0.info p.1).gtag = false ∧ r0.gen ≤ p.2 ∧ p.2 < r.gen)) →
      (∀ p ∈ acc, ∀ q ∈ acc, p.2 = q.2 → p.1 = q.1) →
      (acc.map Prod.fst).Nodup →
      ∃ (new : List (Nat × Nat)) (r' : RState),
        dupInputs ns r acc = (acc ++ new, r')
        ∧ r'.st = r.st ∧ r'.lams = r.lams ∧ r.gen ≤ r'.gen
        ∧ (∀ k, k < r.gen → r'.info k = r.info k)
        ∧ (∀ n ∈ ns, ∃ p ∈ acc ++ new, p.1 = n)
        ∧ (∀ p ∈ new,
            ((r0.info p.1).gtag = true ∧ p.2 = p.1 ∧ p.1 < r0.gen)
            ∨ ((r0.info p.1).gtag = false ∧ r.gen ≤ p.2 ∧ p.2 < r'.gen))
        ∧ (∀ p ∈ acc ++ new, ∀ q ∈ acc ++ new, p.2 = q.2 → p.1 = q.1)
        ∧ ((acc ++ new).map Prod.fst).Nodup := by
  intro ns
  induction ns with
  | nil =>
      intro r acc _ _ _ _ hiacc hnd
      exact ⟨[], r, by simp [dupInputs], rfl, rfl, le_refl _,
        fun k _ => rfl, fun n hn => absurd hn (List.not_mem_nil n),
        fun p hp => absurd hp (List.not_mem_nil p),
        by simpa using hiacc, by simpa using hnd⟩
  | cons n ns ih =>
      intro r acc hle hb hinf hdacc hiacc hnd
      have hn : n < r0.gen := hb n (List.mem_cons_self _ _)
      have hinfn : r.info n = r0.info n := hinf n (List.mem_cons_self _ _)
      by_cases hmem : acc.any (fun p => decide (p.1 = n)) = true
      · have hstep : dupInputs (n :: ns) r acc = dupInputs ns r acc := by
          conv_lhs => rw [dupInputs]
          rw [if_pos hmem]
        rcases ih r acc hle (fun m hm => hb m (List.mem_cons_of_mem _ hm))
          (fun m hm => hinf m (List.mem_cons_of_mem _ hm))
          hdacc hiacc hnd with
          ⟨new, r', heq, hst, hlams, hgen, hik, hcov, hdich, hinj, hnd2⟩
        refine ⟨new, r', by rw [hstep, heq], hst, hlams, hgen, hik, ?_,
          hdich, hinj, hnd2⟩
        intro m hm
        rcases List.mem_cons.1 hm with rfl | hm
        · have hex : ∃ x, (m, x) ∈ acc := by simpa using hmem
          rcases hex with ⟨x, hx⟩
          exact ⟨(m, x), List.mem_append_left _ hx, rfl⟩
        · exact hcov m hm
      · have hany : ∀ (x : Nat), (n, x) ∉ acc := by simpa using hmem
        have hnotin : ∀ p ∈ acc, ¬ p.1 = n := by
          intro p hp h
          exact hany p.2 (by rw [← h]; exact hp)
        have hnin : n ∉ acc.map Prod.fst := by
          intro hmm
          rcases List.mem_map.1 hmm with ⟨p, hp, hpn⟩
          exact hnotin p hp hpn
        by_cases hg : (r.info n).gtag = true
        · have hstep : dupInputs (n :: ns) r acc
              = dupInputs ns r (acc ++ [(n, n)]) := by
            conv_lhs => rw [dupInputs]
            rw [if_neg hmem, if_pos hg]
          rcases ih r (acc ++ [(n, n)]) hle
            (fun m hm => hb m (List.mem_cons_of_mem _ hm))
            (fun m hm => hinf m (List.mem_cons_of_mem _ hm))
            (by
              intro p hp
              rcases List.mem_append.1 hp with hp | hp
              · exact hdacc p hp
              · rcases List.mem_singleton.1 hp with rfl
                exact Or.inl ⟨by rw [← hinfn]; exact hg, rfl, hn⟩)
            (by
              intro p hp q hq hv
              rcases List.mem_append.1 hp with hp | hp <;>
                rcases List.mem_append.1 hq with hq | hq
              · exact hiacc p hp q hq hv
              · rcases List.mem_singleton.1 hq with rfl
                rcases hdacc p hp with ⟨_, h2, _⟩ | ⟨_, h2, _⟩
                · simp only at hv
                  rw [← h2, hv]
                · exfalso
                  simp only at hv
                  omega
              · rcases List.mem_singleton.1 hp with rfl
                rcases hdacc q hq with ⟨_, h2, _⟩ | ⟨_, h2, _⟩
                · simp only at hv
                  rw [h2] at hv
                  exact hv
                · exfalso
                  simp only at hv
                  omega
              · rcases List.mem_singleton.1 hp with rfl
                rcases List.mem_singleton.1 hq with rfl
                rfl)
            (by
              rw [List.map_append, List.nodup_append]
              refine ⟨hnd, by simp, ?_⟩
              intro a ha hb2
              rcases List.mem_singleton.1 (by simpa using hb2)
              exact hnin ha) with
            ⟨new, r', heq, hst, hlams, hgen, hik, hcov, hdich, hinj, hnd2⟩
          have hre : (acc ++ [(n, n)]) ++ new = acc ++ (n, n) :: new := by
            simp
          rw [hre] at hcov hinj hnd2
          refine ⟨(n, n) :: new, r', ?_, hst, hlams, hgen, hik, ?_, ?_,
            hinj, hnd2⟩
          · rw [hstep, heq, List.append_assoc]
            rfl
          · intro m hm
            rcases List.mem_cons.1 hm with rfl | hm
            · exact ⟨(m, m), List.mem_append_right _ (List.mem_cons_self _ _),
                rfl⟩
            · exact hcov m hm
          · intro p hp
            rcases List.mem_cons.1 hp with rfl | hp
            · exact Or.inl ⟨by rw [← hinfn]; exact hg, rfl, hn⟩
            · exact hdich p hp
        · have hg2 : (r.info n).gtag = false := by
            rcases hb2 : (r.info n).gtag with _ | _
            · rfl
            · exact absurd hb2 hg
          have hstep : dupInputs (n :: ns) r acc
              = dupInputs ns
                (alloc r ⟨(r.info n).kind, (r.info n).values, false⟩).2
                (acc ++ [(n, r.gen)]) := by
            conv_lhs => rw [dupInputs]
            rw [if_neg hmem, if_neg (by rw [hg2]; simp)]
          rcases ih (alloc r ⟨(r.info n).kind, (r.info n).values, false⟩).2
            (acc ++ [(n, r.gen)]) (by dsimp only [alloc]; omega)
            (fun m hm => hb m (List.mem_cons_of_mem _ hm))
            (fun m hm => by
              dsimp only [alloc]
              rw [if_neg (by have := hb m (List.mem_cons_of_mem _ hm); omega)]
              exact hinf m (List.mem_cons_of_mem _ hm))
            (by
              intro p hp
              rcases List.mem_append.1 hp with hp | hp
              · rcases hdacc p hp with ⟨h1, h2, h3⟩ | ⟨h1, h2, h3⟩
                · exact Or.inl ⟨h1, h2, h3⟩
                · exact Or.inr ⟨h1, h2, by dsimp only [alloc]; omega⟩
              · rcases List.mem_singleton.1 hp with rfl
                exact Or.inr ⟨by rw [← hinfn]; exact hg2, hle,
                  by dsimp only [alloc]; omega⟩)
            (by
              intro p hp q hq hv
              rcases List.mem_append.1 hp with hp | hp <;>
                rcases List.mem_append.1 hq with hq | hq
              · exact hiacc p hp q hq hv
              · rcases List.mem_singleton.1 hq with rfl
                exfalso
                rcases hdacc p hp with ⟨_, h2, h3⟩ | ⟨_, h2, h3⟩
                · simp only at hv
                  omega
                · simp only at hv
                  omega
              · rcases List.mem_singleton.1 hp with rfl
                exfalso
                rcases hdacc q hq with ⟨_, h2, h3⟩ | ⟨_, h2, h3⟩
                · simp only at hv
                  omega
                · simp only at hv
                  omega
              · rcases List.mem_singleton.1 hp with rfl
                rcases List.mem_singleton.1 hq with rfl
                rfl)
            (by
              rw [List.map_append, List.nodup_append]
              refine ⟨hnd, by simp, ?_⟩
              intro a ha hb2
              rcases List.mem_singleton.1 (by simpa using hb2)
              exact hnin ha) with
            ⟨new, r', heq, hst, hlams, hgen, hik, hcov, hdich, hinj, hnd2⟩
          dsimp only [alloc] at hst hlams hgen hik hdich
          have hre : (acc ++ [(n, r.gen)]) ++ new
              = acc ++ (n, r.gen) :: new := by
            simp
          rw [hre] at hcov hinj hnd2
          refine ⟨(n, r.gen) :: new, r', ?_, hst, hlams, by omega, ?_, ?_,
            ?_, hinj, hnd2⟩
          · rw [hstep, heq, List.append_assoc]
            rfl
          · intro k hk
            rw [hik k (by omega)]
            rw [if_neg (by omega)]
          · intro m hm
            rcases List.mem_cons.1 hm with rfl | hm
            · exact ⟨(m, r.gen),
                List.mem_append_right _ (List.mem_cons_self _ _), rfl⟩
            · exact hcov m hm
          · intro p hp
            rcases List.mem_cons.1 hp with rfl | hp
            · exact Or.inr ⟨by rw [← hinfn]; exact hg2, le_refl _, by omega⟩
            · rcases hdich p hp with ⟨h1, h2, h3⟩ | ⟨h1, h2, h3⟩
              · exact Or.inl ⟨h1, h2, h3⟩
              · exact Or.inr ⟨h1, by omega, h3⟩

/-- The correspondence `corresp` that `IRLambda.dup` relabels through:
the graph-node renaming extended over the inputs. -/
def dupCor (r : RState) (c : LamContent) : List (Nat × Nat) :=
  (dupInputs c.inputs (dupFold (nodesOf ⟨c.edges⟩) r []).2
    (dupFold (nodesOf ⟨c.edges⟩) r []).1).1

/-- The full correspondence of one `dup`: distinct keys covering every
node and input, each value either the key itself (`rename` identity) or a
fresh id from this call's generator window, and value-injective. -/
theorem dupCor_spec (r : RState) (c : LamContent)
    (hb : ∀ n ∈ nodesOf ⟨c.edges⟩ ++ c.inputs, n < r.gen) :
    ((dupCor r c).map Prod.fst).Nodup
    ∧ r.gen ≤ (dupLam r c).2.gen
    ∧ (∀ n ∈ nodesOf ⟨c.edges⟩ ++ c.inputs, ∃ p ∈ dupCor r c, p.1 = n)
    ∧ (∀ p ∈ dupCor r c,
        ((r.info p.1).gtag = true ∧ p.2 = p.1 ∧ p.1 < r.gen)
        ∨ ((r.info p.1).gtag = false ∧ r.gen ≤ p.2
            ∧ p.2 < (dupLam r c).2.gen))
    ∧ (∀ p ∈ dupCor r c, ∀ q ∈ dupCor r c, p.2 = q.2 → p.1 = q.1) := by
  rcases dupFold_spec r (nodesOf ⟨c.edges⟩) r [] (le_refl _)
    (fun n hn => hb n (List.mem_append_left _ hn))
    (fun n _ => rfl) with
    ⟨new1, rmid, heq1, _, _, hgen1, hik1, hkeys1, hdich1, hinj1⟩
  rcases dupInputs_spec r c.inputs rmid new1 hgen1
    (fun n hn => hb n (List.mem_append_right _ hn))
    (fun n hn => hik1 n (hb n (List.mem_append_right _ hn)))
    hdich1 hinj1 (by rw [hkeys1]; exact nodesOf_nodup _) with
    ⟨new2, r', heq2, _, _, hgen2, _, hcov2, hdich2, hinj2, hnd2⟩
  have e1 : dupCor r c = new1 ++ new2 := by
    unfold dupCor
    rw [heq1]
    show (dupInputs c.inputs rmid new1).1 = new1 ++ new2
    rw [heq2]
  have e2 : (dupLam r c).2 = r' := by
    show (dupInputs c.inputs (dupFold (nodesOf ⟨c.edges⟩) r []).2
      (dupFold (nodesOf ⟨c.edges⟩) r []).1).2 = r'
    rw [heq1]
    show (dupInputs c.inputs rmid new1).2 = r'
    rw [heq2]
  refine ⟨?_, ?_, ?_, ?_, ?_⟩
  · rw [e1]
    exact hnd2
  · rw [e2]
    exact le_trans hgen1 hgen2
  · intro m hm
    rw [e1]
    rcases List.mem_append.1 hm with hm | hm
    · have : m ∈ new1.map Prod.fst := by rw [hkeys1]; exact hm
      rcases List.mem_map.1 this with ⟨p, hp, hpm⟩
      exact ⟨p, List.mem_append_left _ hp, hpm⟩
    · exact hcov2 m hm
  · intro p hp
    rw [e1] at hp
    rw [e2]
    rcases List.mem_append.1 hp with hp | hp
    · rcases hdich1 p hp with ⟨h1, h2, h3⟩ | ⟨h1, h2, h3⟩
      · exact Or.inl ⟨h1, h2, h3⟩
      · exact Or.inr ⟨h1, h2, by omega⟩
    · rcases hdich2 p hp with ⟨h1, h2, h3⟩ | ⟨h1, h2, h3⟩
      · exact Or.inl ⟨h1, h2, h3⟩
      · exact Or.inr ⟨h1, by omega, h3⟩
  · intro p hp q hq
    rw [e1] at hp hq
    exact hinj2 p hp q hq

/-- C6: inlining the same callee Lambda at two call sites (`IRLambda.dup`
run from the first site's state `ra`, then from a later state `rb`)
produces two structurally equal copies — each copy's edge list is the
callee's relabelled along its own correspondence, with roles untouched —
that share a node exactly when its tag is a constant `ValueNode` or a
global `Symbol` (`gtag`); every other node is deep-copied to a fresh id,
the two fresh ranges are disjoint, and each relabelling is injective on
the callee's nodes and inputs. -/
theorem inline_hygiene (ra rb : RState) (c : LamContent)
    (hb : ∀ n ∈ nodesOf ⟨c.edges⟩ ++ c.inputs, n < ra.gen)
    (hg : (dupLam ra c).2.gen ≤ rb.gen)
    (hinfo : ∀ n ∈ nodesOf ⟨c.edges⟩ ++ c.inputs, rb.info n = ra.info n) :
    ((dupLam ra c).1.edges = c.edges.map (fun e =>
        (corLookup (dupCor ra c) e.1, e.2.1, corLookup (dupCor ra c) e.2.2))
      ∧ (dupLam rb c).1.edges = c.edges.map (fun e =>
        (corLookup (dupCor rb c) e.1, e.2.1,
          corLookup (dupCor rb c) e.2.2)))
    ∧ (∀ n ∈ nodesOf ⟨c.edges⟩ ++ c.inputs,
        ((ra.info n).gtag = true ∧ corLookup (dupCor ra c) n = n
          ∧ corLookup (dupCor rb c) n = n)
        ∨ ((ra.info n).gtag = false
          ∧ ra.gen ≤ corLookup (dupCor ra c) n
          ∧ corLookup (dupCor ra c) n < (dupLam ra c).2.gen
          ∧ rb.gen ≤ corLookup (dupCor rb c) n
          ∧ corLookup (dupCor rb c) n < (dupLam rb c).2.gen))
    ∧ (∀ n ∈ nodesOf ⟨c.edges⟩ ++ c.inputs,
        ∀ m ∈ nodesOf ⟨c.edges⟩ ++ c.inputs,
        (ra.info n).gtag = false →
        corLookup (dupCor ra c) n ≠ corLookup (dupCor rb c) m)
    ∧ (∀ n ∈ nodesOf ⟨c.edges⟩ ++ c.inputs,
        ∀ m ∈ nodesOf ⟨c.edges⟩ ++ c.inputs,
        corLookup (dupCor ra c) n = corLookup (dupCor ra c) m → n = m)
    ∧ (∀ n ∈ nodesOf ⟨c.edges⟩ ++ c.inputs,
        ∀ m ∈ nodesOf ⟨c.edges⟩ ++ c.inputs,
        corLookup (dupCor rb c) n = corLookup (dupCor rb c) m → n = m) := by
  obtain ⟨nd1, gmono1, cov1, dich1, inj1⟩ := dupCor_spec ra c hb
  have hb2 : ∀ n ∈ nodesOf ⟨c.edges⟩ ++ c.inputs, n < rb.gen :=
    fun n hn => lt_of_lt_of_le (hb n hn) (le_trans gmono1 hg)
  obtain ⟨nd2, gmono2, cov2, dich2, inj2⟩ := dupCor_spec rb c hb2
  have key1 : ∀ n ∈ nodesOf ⟨c.edges⟩ ++ c.inputs,
      ((ra.info n).gtag = true ∧ corLookup (dupCor ra c) n = n)
      ∨ ((ra.info n).gtag = false ∧ ra.gen ≤ corLookup (dupCor ra c) n
          ∧ corLookup (dupCor ra c) n < (dupLam ra c).2.gen) := by
    intro n hn
    obtain ⟨p, hp, hpn⟩ := cov1 n hn
    have hval := corLookup_mem _ nd1 p hp
    rw [hpn] at hval
    rcases dich1 p hp with ⟨h1, h2, _⟩ | ⟨h1, h2, h3⟩
    · rw [hpn] at h1
      exact Or.inl ⟨h1, by rw [hval, h2, hpn]⟩
    · rw [hpn] at h1
      rw [← hval] at h2 h3
      exact Or.inr ⟨h1, h2, h3⟩
  have key2 : ∀ n ∈ nodesOf ⟨c.edges⟩ ++ c.inputs,
      ((ra.info n).gtag = true ∧ corLookup (dupCor rb c) n = n)
      ∨ ((ra.info n).gtag = false ∧ rb.gen ≤ corLookup (dupCor rb c) n
          ∧ corLookup (dupCor rb c) n < (dupLam rb c).2.gen) := by
    intro n hn
    obtain ⟨p, hp, hpn⟩ := cov2 n hn
    have hval := corLookup_mem _ nd2 p hp
    rw [hpn] at hval
    rcases dich2 p hp with ⟨h1, h2, _⟩ | ⟨h1, h2, h3⟩
    · rw [hpn, hinfo n hn] at h1
      exact Or.inl ⟨h1, by rw [hval, h2, hpn]⟩
    · rw [hpn, hinfo n hn] at h1
      rw [← hval] at h2 h3
      exact Or.inr ⟨h1, h2, h3⟩
  refine ⟨⟨rfl, rfl⟩, ?_, ?_, ?_, ?_⟩
  · intro n hn
    rcases key1 n hn with ⟨h1, e1⟩ | ⟨h1, e1a, e1b⟩ <;>
      rcases key2 n hn with ⟨h2, e2⟩ | ⟨h2, e2a, e2b⟩
    · exact Or.inl ⟨h1, e1, e2⟩
    · rw [h1] at h2
      cases h2
    · rw [h1] at h2
      cases h2
    · exact Or.inr ⟨h1, e1a, e1b, e2a, e2b⟩
  · intro n hn m hm hgf
    rcases key1 n hn with ⟨h1, _⟩ | ⟨_, e1a, e1b⟩
    · rw [hgf] at h1
      cases h1
    · rcases key2 m hm with ⟨_, e2⟩ | ⟨_, e2a, _⟩
      · have hmb : m < ra.gen := hb m hm
        rw [e2]
        omega
      · omega
  · intro n hn m hm he
    obtain ⟨p, hp, hpn⟩ := cov1 n hn
    obtain ⟨q, hq, hqm⟩ := cov1 m hm
    have hvp := corLookup_mem _ nd1 p hp
    have hvq := corLookup_mem _ nd1 q hq
    rw [hpn] at hvp
    rw [hqm] at hvq
    rw [hvp, hvq] at he
    rw [← hpn, ← hqm]
    exact inj1 p hp q hq he
  · intro n hn m hm he
    obtain ⟨p, hp, hpn⟩ := cov2 n hn
    obtain ⟨q, hq, hqm⟩ := cov2 m hm
    have hvp := corLookup_mem _ nd2 p hp
    have hvq := corLookup_mem _ nd2 q hq
    rw [hpn] at hvp
    rw [hqm] at hvq
    rw [hvp, hvq] at he
    rw [← hpn, ← hqm]
    exact inj2 p hp q hq he

/-- Node data of the C6 witness callee: node 1 a global `add` symbol,
node 2 an input, node 0 its application. -/
def c6info : Nat → NInfo := fun k =>
  if k = 1 then ⟨NKind.value, some (MVal.bsym Builtin.add), true⟩
  else if k = 2 then ⟨NKind.input, none, false⟩
  else ⟨NKind.comp, none, false⟩

/-- C6 witness callee: `0 = add(2)` with input `2` and output `0`. -/
def cC6 : LamContent := ⟨[(0, Role.FN, 1), (0, Role.IN 0, 2)], [2], 0⟩

/-- C6 witness caller state before the first inline. -/
def rC6 : RState :=
  { st := ⟨⟨[]⟩, 0⟩, info := c6info, lams := fun _ => none, gen := 100 }

/-- C6 witness: the computation node 0 of the callee gets two distinct
fresh copies when inlined twice in a row. -/
theorem inline_hygiene_witness :
    corLookup (dupCor rC6 cC6) 0
      ≠ corLookup (dupCor (dupLam rC6 cC6).2 cC6) 0 := by
  have h := inline_hygiene rC6 (dupLam rC6 cC6).2 cC6 (by decide)
    (le_refl _) (by decide)
  exact h.2.2.1 0 (by decide) 0 (by decide) (by decide)

/-! ## Export: `GraphToANF.transform` -/

/-- ANF abstract syntax produced by export: a `Symbol` tag of a graph node,
a builtin `Symbol` (an `IRValue`\'s symbolic value), a `ValueNode` literal,
and the `TupleNode`/`ClosureNode`/`ApplyNode` clause forms. -/
inductive Ast where
  | tag : Nat → Ast
  | sym : Builtin → Ast
  | val : MVal → Ast
  | tup : List Ast → Ast
  | clos : Ast → List Ast → Ast
  | app : Ast → List Ast → Ast

/-- `IRNode.to_ast` / `IRValue.to_ast`: an `IRValue` returns its value —
the `Symbol` itself when symbolic, a `ValueNode` otherwise (reading
`.value` of a valueless `IRValue` is a Python error) — and every other
node returns its tag. -/
def toAst (info : Nat → NInfo) (n : Nat) : Except RErr Ast :=
  if (info n).kind = NKind.value then
    match (info n).values with
    | some (MVal.bsym b) => Except.ok (Ast.sym b)
    | some v => Except.ok (Ast.val v)
    | none => Except.error RErr.stuck
  else Except.ok (Ast.tag n)

/-- `to_ast` of an s-expression atom: the fresh `IRValue`s the sugar
constructors allocate convert by their value. -/
def atomAst (info : Nat → NInfo) : Atom Nat → Except RErr Ast
  | Atom.node n => toAst info n
  | Atom.vval (MVal.bsym b) => Except.ok (Ast.sym b)
  | Atom.vval v => Except.ok (Ast.val v)

/-- `[a.to_ast() for a in prod.args]`. -/
def astList (info : Nat → NInfo) : List (Atom Nat) → Except RErr (List Ast)
  | [] => Except.ok []
  | x :: xs =>
      match atomAst info x with
      | Except.error e => Except.error e
      | Except.ok a =>
          match astList info xs with
          | Except.error e => Except.error e
          | Except.ok rest => Except.ok (a :: rest)

/-- The body of the per-node loop of `GraphToANF.transform`: take the
node\'s productor; with no productor emit nothing (`continue`); otherwise
the productor is an `ApplyOperation` (all operations desugar to one),
convert the argument and function nodes to asts, and emit one binding —
the single argument itself under an `identity` function (`val, = args`,
a `ValueError` when the arity is not 1), a `TupleNode` under `mktuple`, a
`ClosureNode` under `partial` (`fn, *args = args`, an error on zero
arguments), and a generic `ApplyNode` otherwise. -/
def bindingOf (info : Nat → NInfo) (g : MGraph Nat) (node : Nat) :
    Except RErr (Option (Nat × Ast)) :=
  match productorM g node with
  | Except.error e => Except.error (RErr.sync e)
  | Except.ok none => Except.ok none
  | Except.ok (some cop) =>
    match cop.sexp with
    | [] => Except.error RErr.stuck
    | fnAtom :: argAtoms =>
      match astList info argAtoms with
      | Except.error e => Except.error e
      | Except.ok aas =>
        match atomAst info fnAtom with
        | Except.error e => Except.error e
        | Except.ok fa =>
          match fa with
          | Ast.sym Builtin.identity =>
              match aas with
              | [a] => Except.ok (some (node, a))
              | _ => Except.error RErr.stuck
          | Ast.sym Builtin.mktuple => Except.ok (some (node, Ast.tup aas))
          | Ast.sym Builtin.partialFn =>
              match aas with
              | f :: rest => Except.ok (some (node, Ast.clos f rest))
              | [] => Except.error RErr.stuck
          | _ => Except.ok (some (node, Ast.app fa aas))

/-- The `for node in nodes` loop of `GraphToANF.transform`: skip `IRLambda`
nodes, skip nodes without a productor, append one binding for every other
node. -/
def transformBindings (info : Nat → NInfo) (g : MGraph Nat) :
    List Nat → List (Nat × Ast) → Except RErr (List (Nat × Ast))
  | [], acc => Except.ok acc
  | n :: rest, acc =>
      if (info n).kind = NKind.lam then transformBindings info g rest acc
      else
        match bindingOf info g n with
        | Except.error e => Except.error e
        | Except.ok none => transformBindings info g rest acc
        | Except.ok (some b) => transformBindings info g rest (acc ++ [b])

/-- The exported `LambdaNode`: parameter tags, `LetNode` bindings, return
tag. -/
structure AnfLam where
  params : List Nat
  bindings : List (Nat × Ast)
  ret : Nat

/-- `GraphToANF.transform`: run the binding loop over the toposorted nodes
(`nx.topological_sort` is library code; modelled from the spec as a given
topological order parameter — every claim checked here is
order-independent), reverse the bindings, and rebuild the Lambda from the
input tags and the output tag. -/
def transform (info : Nat → NInfo) (c : LamContent) (order : List Nat) :
    Except RErr AnfLam :=
  match transformBindings info ⟨c.edges⟩ order [] with
  | Except.error e => Except.error e
  | Except.ok bs => Except.ok ⟨c.inputs, bs.reverse, c.output⟩

/-- A successful loop body keys its binding by the node it visits. -/
theorem bindingOf_fst (info : Nat → NInfo) (g : MGraph Nat) (n : Nat)
    (b : Nat × Ast) (h : bindingOf info g n = Except.ok (some b)) :
    b.1 = n := by
  unfold bindingOf at h
  rcases hp : productorM g n with e | oc
  · simp only [hp] at h
    cases h
  · rcases oc with _ | cop
    · simp only [hp] at h
      cases h
    · simp only [hp] at h
      rcases hs : cop.sexp with _ | ⟨fnAtom, argAtoms⟩
      · simp only [hs] at h
        cases h
      · simp only [hs] at h
        rcases hm : astList info argAtoms with e | aas
        · simp only [hm] at h
          cases h
        · simp only [hm] at h
          rcases hf : atomAst info fnAtom with e | fa
          · simp only [hf] at h
            cases h
          · simp only [hf] at h
            cases fa with
            | sym bsy =>
                cases bsy with
                | identity =>
                    rcases aas with _ | ⟨a1, rest2⟩
                    · cases h
                    · rcases rest2 with _ | ⟨a2, rest3⟩
                      · cases h
                        rfl
                      · cases h
                | mktuple =>
                    cases h
                    rfl
                | partialFn =>
                    rcases aas with _ | ⟨f1, rest2⟩
                    · cases h
                    · cases h
                      rfl
                | index =>
                    cases h
                    rfl
                | add =>
                    cases h
                    rfl
                | multiply =>
                    cases h
                    rfl
                | J =>
                    cases h
                    rfl
                | Jinv =>
                    cases h
                    rfl
                | switch =>
                    cases h
                    rfl
                | divide =>
                    cases h
                    rfl
            | tag t =>
                cases h
                rfl
            | val v =>
                cases h
                rfl
            | tup l =>
                cases h
                rfl
            | clos f r =>
                cases h
                rfl
            | app f r =>
                cases h
                rfl

/-- Node data of the C4 example: node `0` a computation, node `2` an
input. -/
def c4info : Nat → NInfo := fun k =>
  if k = 2 then ⟨NKind.input, none, false⟩ else ⟨NKind.comp, none, false⟩

/-- C4 example Lambda: a single `Copy` node `0 ==COPY=> 2` aliasing the
input `2`, with output `0`. -/
def c4lam : LamContent := ⟨[(0, Role.COPY, 2)], [2], 0⟩

/-- C4 counterexample: node `0`\'s canonical Operation desugars from
`identity` (a `CopyOperation`), yet export emits one binding `(0, 2)` for
it — a copy clause — not nothing: the alias is kept, not eliminated. -/
theorem export_identity_not_eliminated :
    productorM (⟨c4lam.edges⟩ : MGraph Nat) 0 = Except.ok (some (COp.copy 2))
    ∧ transform c4info c4lam [0, 2]
        = Except.ok ⟨[2], [(0, Ast.tag 2)], 0⟩ := ⟨rfl, rfl⟩

/-- C4 (amended): export emits exactly one binding for every non-Lambda
node of the order with a reconstructed producer — nodes whose Operation
desugars from `identity` included, which export as a copy binding whose
right-hand side is the argument\'s ast — and no binding for producer-less
nodes. -/
theorem export_binding_per_node (info : Nat → NInfo) (g : MGraph Nat) :
    ∀ (order : List Nat) (acc bs : List (Nat × Ast)),
      transformBindings info g order acc = Except.ok bs →
      (∃ new, bs = acc ++ new
        ∧ new.map Prod.fst = order.filter (fun n =>
            !decide ((info n).kind = NKind.lam)
            && match bindingOf info g n with
               | Except.ok (some _) => true
               | _ => false)
        ∧ (∀ p ∈ new, bindingOf info g p.1 = Except.ok (some p)))
      ∧ (∀ n src a, productorM g n = Except.ok (some (COp.copy src)) →
          toAst info src = Except.ok a →
          bindingOf info g n = Except.ok (some (n, a))) := by
  have hcopy : ∀ n src a, productorM g n = Except.ok (some (COp.copy src)) →
      toAst info src = Except.ok a →
      bindingOf info g n = Except.ok (some (n, a)) := by
    intro n src a h1 h2
    simp [bindingOf, h1, COp.sexp, astList, atomAst, h2]
  intro order
  induction order with
  | nil =>
      intro acc bs h
      cases h
      exact ⟨⟨[], by rw [List.append_nil], rfl,
        fun p hp => absurd hp (List.not_mem_nil p)⟩, hcopy⟩
  | cons n rest ih =>
      intro acc bs h
      refine ⟨?_, hcopy⟩
      by_cases hl : (info n).kind = NKind.lam
      · have hstep : transformBindings info g (n :: rest) acc
            = transformBindings info g rest acc := by
          conv_lhs => rw [transformBindings]
          rw [if_pos hl]
        rw [hstep] at h
        rcases (ih acc bs h).1 with ⟨new, h1, h2, h3⟩
        refine ⟨new, h1, ?_, h3⟩
        rw [List.filter_cons_of_neg (by simp [hl])]
        exact h2
      · rcases hb : bindingOf info g n with e | ob
        · rw [show transformBindings info g (n :: rest) acc
              = Except.error e from by
            conv_lhs => rw [transformBindings]
            rw [if_neg hl, hb]] at h
          cases h
        · rcases ob with _ | b
          · have hstep : transformBindings info g (n :: rest) acc
                = transformBindings info g rest acc := by
              conv_lhs => rw [transformBindings]
              rw [if_neg hl, hb]
            rw [hstep] at h
            rcases (ih acc bs h).1 with ⟨new, h1, h2, h3⟩
            refine ⟨new, h1, ?_, h3⟩
            rw [List.filter_cons_of_neg (by simp [hl, hb])]
            exact h2
          · have hstep : transformBindings info g (n :: rest) acc
                = transformBindings info g rest (acc ++ [b]) := by
              conv_lhs => rw [transformBindings]
              rw [if_neg hl, hb]
            rw [hstep] at h
            rcases (ih (acc ++ [b]) bs h).1 with ⟨new, h1, h2, h3⟩
            have hbn : b.1 = n := bindingOf_fst info g n b hb
            refine ⟨b :: new, by rw [h1, List.append_assoc]; rfl, ?_, ?_⟩
            · rw [List.filter_cons_of_pos (by simp [hl, hb])]
              rw [List.map_cons, h2, hbn]
            · intro p hp
              rcases List.mem_cons.1 hp with rfl | hp
              · rw [hbn]
                exact hb
              · exact h3 p hp

/-- C4 witness: on the one-`Copy` Lambda the loop emits exactly the one
binding `(0, 2)`, keyed by the single producer-carrying node `0`. -/
theorem export_binding_per_node_witness :
    (∃ new, ([(0, Ast.tag 2)] : List (Nat × Ast)) = [] ++ new
      ∧ new.map Prod.fst = [0, 2].filter (fun n =>
          !decide ((c4info n).kind = NKind.lam)
          && match bindingOf c4info ⟨c4lam.edges⟩ n with
             | Except.ok (some _) => true
             | _ => false)
      ∧ (∀ p ∈ new,
          bindingOf c4info ⟨c4lam.edges⟩ p.1 = Except.ok (some p)))
    ∧ (∀ n src a,
        productorM (⟨c4lam.edges⟩ : MGraph Nat) n
          = Except.ok (some (COp.copy src)) →
        toAst c4info src = Except.ok a →
        bindingOf c4info ⟨c4lam.edges⟩ n = Except.ok (some (n, a))) :=
  export_binding_per_node c4info ⟨c4lam.edges⟩ [0, 2] [] [(0, Ast.tag 2)] rfl

/-! ## Round trip: `Universe._graph_transform` then export -/

/-- An ANF operand: a local name, a global builtin `Symbol`, or a literal
(the front-end grammar: symbol reference or literal). -/
inductive AAtom where
  | loc : Nat → AAtom
  | glob : Builtin → AAtom
  | lit : MVal → AAtom
deriving DecidableEq, Repr

/-- A binding right-hand side of the ANF grammar: a plain
symbol/value reference, an application, a closure construction, or a
tuple construction. -/
inductive ARhs where
  | copy : AAtom → ARhs
  | app : AAtom → List AAtom → ARhs
  | clos : AAtom → List AAtom → ARhs
  | tup : List AAtom → ARhs

/-- An ANF function: parameter names, plain-name bindings in evaluation
order, and the returned name. -/
structure Anf where
  params : List Nat
  binds : List (Nat × ARhs)
  ret : Nat

/-- Injective numbering of the builtins, for the node-id encoding. -/
def bIdx : Builtin → Nat
  | Builtin.identity => 0
  | Builtin.mktuple => 1
  | Builtin.index => 2
  | Builtin.partialFn => 3
  | Builtin.add => 4
  | Builtin.multiply => 5
  | Builtin.J => 6
  | Builtin.Jinv => 7
  | Builtin.switch => 8
  | Builtin.divide => 9

/-- Partial inverse of `bIdx`. -/
def bOf : Nat → Builtin
  | 0 => Builtin.identity
  | 1 => Builtin.mktuple
  | 2 => Builtin.index
  | 3 => Builtin.partialFn
  | 4 => Builtin.add
  | 5 => Builtin.multiply
  | 6 => Builtin.J
  | 7 => Builtin.Jinv
  | 8 => Builtin.switch
  | _ => Builtin.divide

/-- State of one `_graph_transform` build: the graph under construction,
the per-node data, and the allocation counter for the fresh `IRValue`
nodes (`wrap` of a `ValueNode`, and the `IRValue`s the sugar operations
allocate).  Node ids encode `wrap`\'s association: a local `Symbol` `n`
is node `3n` (cached — re-referencing a name yields the same node), the
global builtin `Symbol` `b` is node `3·bIdx b + 1` (cached in `assoc`),
and the `k`-th fresh `IRValue` is node `3k + 2`. -/
structure BuildSt where
  g : MGraph Nat
  info : Nat → NInfo
  k : Nat

/-- Allocate a fresh `IRValue(v)`: tagged by a `ValueNode`, so
rename-exempt. -/
def freshVal (st : BuildSt) (v : MVal) : Nat × BuildSt :=
  (3 * st.k + 2,
   { st with k := st.k + 1,
             info := fun m => if m = 3 * st.k + 2
               then ⟨NKind.value, some v, true⟩ else st.info m })

/-- `wrap(x)` on an operand: local and global symbols resolve to their
cached nodes, a `ValueNode` makes a fresh `IRValue` each occurrence. -/
def wrapAtom (st : BuildSt) : AAtom → Nat × BuildSt
  | AAtom.loc n => (3 * n, st)
  | AAtom.glob b => (3 * bIdx b + 1, st)
  | AAtom.lit v => freshVal st v

/-- `[wrap(a) for a in v.args]`. -/
def wrapAtoms (st : BuildSt) : List AAtom → List Nat × BuildSt
  | [] => ([], st)
  | a :: rest =>
      ((wrapAtom st a).1 :: (wrapAtoms (wrapAtom st a).2 rest).1,
       (wrapAtoms (wrapAtom st a).2 rest).2)

/-- Install an `ApplyOperation` into the build graph. -/
def instApp (st : BuildSt) (wk fn : Nat) (args : List Nat) : BuildSt :=
  { st with g := st.g.installApply wk fn args }

/-- One `assign(k, v)` of `_graph_transform` on a plain-name binding:
wrap the operands (arguments before the function, as the source does),
then install the dispatched Operation on the bound node — `Copy` for a
reference (a fresh `IRValue(identity)` function node), `Apply` for an
application, `Closure` for a closure (a fresh `IRValue(partial)`),
`Tuple` for a tuple (a fresh `IRValue(mktuple)`). -/
def installRhs (st : BuildSt) (wk : Nat) : ARhs → BuildSt
  | ARhs.copy a =>
      instApp (freshVal (wrapAtom st a).2 (MVal.bsym Builtin.identity)).2 wk
        (freshVal (wrapAtom st a).2 (MVal.bsym Builtin.identity)).1
        [(wrapAtom st a).1]
  | ARhs.app f args =>
      instApp (wrapAtom (wrapAtoms st args).2 f).2 wk
        (wrapAtom (wrapAtoms st args).2 f).1
        (wrapAtoms st args).1
  | ARhs.clos f args =>
      instApp (freshVal (wrapAtom (wrapAtoms st args).2 f).2
          (MVal.bsym Builtin.partialFn)).2 wk
        (freshVal (wrapAtom (wrapAtoms st args).2 f).2
          (MVal.bsym Builtin.partialFn)).1
        ((wrapAtom (wrapAtoms st args).2 f).1 :: (wrapAtoms st args).1)
  | ARhs.tup args =>
      instApp (freshVal (wrapAtoms st args).2 (MVal.bsym Builtin.mktuple)).2
        wk (freshVal (wrapAtoms st args).2 (MVal.bsym Builtin.mktuple)).1
        (wrapAtoms st args).1

/-- `for k, v in let.bindings: assign(k, v)`. -/
def buildBinds (st : BuildSt) : List (Nat × ARhs) → BuildSt
  | [] => st
  | (k, rhs) :: rest => buildBinds (installRhs st (3 * k) rhs) rest

/-- Initial per-node data of a build: bound/parameter names (`3n`) are
`IRComputation`/`IRInput` nodes tagged by local symbols (not
rename-exempt), builtin-symbol nodes (`3i+1`) are `IRComputation`s
carrying the symbol as value and tagged by a global `Symbol`, and
`IRValue` slots (`3k+2`) are filled at allocation. -/
def info0 (a : Anf) : Nat → NInfo := fun id =>
  if id % 3 = 0 then
    (if id / 3 ∈ a.params then ⟨NKind.input, none, false⟩
     else ⟨NKind.comp, none, false⟩)
  else if id % 3 = 1 then
    ⟨NKind.comp, some (MVal.bsym (bOf (id / 3))), true⟩
  else ⟨NKind.value, none, true⟩

/-- `Universe._graph_transform` on an ANF function of the front-end
grammar: walk the bindings in order, installing each one. -/
def acquire (a : Anf) : BuildSt :=
  buildBinds ⟨⟨[]⟩, info0 a, 0⟩ a.binds

/-- The Lambda produced by `acquire`: the built graph, the wrapped
parameters, the wrapped returned name. -/
def acquireLam (a : Anf) : LamContent :=
  ⟨(acquire a).g.edges, a.params.map (fun n => 3 * n), 3 * a.ret⟩

/-- The spec\'s variable renaming on operands ("structurally equivalent up
to variable renaming"): a local name `n` reads back as the tag of node
`3n`, a builtin symbol as the tag of its cached node, a literal as
itself.  Stated from the spec, to be compared with what the source
export produces. -/
def specAtomAst : AAtom → Ast
  | AAtom.loc n => Ast.tag (3 * n)
  | AAtom.glob b => Ast.tag (3 * bIdx b + 1)
  | AAtom.lit (MVal.bsym b) => Ast.sym b
  | AAtom.lit v => Ast.val v

/-- The spec\'s claimed round-trip image of one binding right-hand side:
the same grammatical shape with operands renamed. -/
def specRhsAst : ARhs → Ast
  | ARhs.copy a => specAtomAst a
  | ARhs.app f args => Ast.app (specAtomAst f) (args.map specAtomAst)
  | ARhs.clos f args => Ast.clos (specAtomAst f) (args.map specAtomAst)
  | ARhs.tup args => Ast.tup (args.map specAtomAst)

/-- Function-position atoms for which the round trip is shape-preserving:
calling a literal, or one of the three reserved desugaring builtins
(`identity`/`mktuple`/`partial`, whose applications export back as the
sugared clause forms), is excluded. -/
def fnOK : AAtom → Bool
  | AAtom.loc _ => true
  | AAtom.glob b =>
      !(b = Builtin.identity || b = Builtin.mktuple || b = Builtin.partialFn)
  | AAtom.lit _ => false

/-- Well-formedness of one right-hand side for the round-trip claim. -/
def rhsOK : ARhs → Bool
  | ARhs.copy _ => true
  | ARhs.app f _ => fnOK f
  | ARhs.clos _ _ => true
  | ARhs.tup _ => true

/-- Non-`IRValue` nodes (ids not `≡ 2 mod 3`) never have `IRValue` class.
-/
def InfoOK (st : BuildSt) : Prop :=
  ∀ id, ¬ id % 3 = 2 → ¬ (st.info id).kind = NKind.value

/-- `info2` agrees with the build state on every node the build has
already fixed: all symbol nodes, and the `IRValue`s allocated so far. -/
def InfoAgree (st : BuildSt) (info2 : Nat → NInfo) : Prop :=
  ∀ id, id < 3 * st.k + 2 ∨ ¬ id % 3 = 2 → info2 id = st.info id

theorem freshVal_info (st : BuildSt) (v : MVal) :
    ∀ id, id < 3 * st.k + 2 ∨ ¬ id % 3 = 2 →
      (freshVal st v).2.info id = st.info id := by
  intro id hid
  unfold freshVal
  simp only
  rw [if_neg (by omega)]

theorem wrapAtom_g (st : BuildSt) : ∀ a, (wrapAtom st a).2.g = st.g := by
  intro a
  cases a <;> rfl

theorem wrapAtom_k (st : BuildSt) : ∀ a, st.k ≤ (wrapAtom st a).2.k := by
  intro a
  cases a
  · exact le_refl _
  · exact le_refl _
  · exact Nat.le_succ _

theorem wrapAtom_info (st : BuildSt) (a : AAtom) :
    ∀ id, id < 3 * st.k + 2 ∨ ¬ id % 3 = 2 →
      (wrapAtom st a).2.info id = st.info id := by
  intro id hid
  cases a
  · rfl
  · rfl
  · exact freshVal_info st _ id hid

theorem wrapAtoms_g (st : BuildSt) :
    ∀ l, (wrapAtoms st l).2.g = st.g := by
  intro l
  induction l generalizing st with
  | nil => rfl
  | cons a rest ih =>
      show (wrapAtoms (wrapAtom st a).2 rest).2.g = st.g
      rw [ih (wrapAtom st a).2, wrapAtom_g]

theorem wrapAtoms_k (st : BuildSt) :
    ∀ l, st.k ≤ (wrapAtoms st l).2.k := by
  intro l
  induction l generalizing st with
  | nil => exact le_refl _
  | cons a rest ih =>
      exact le_trans (wrapAtom_k st a) (ih (wrapAtom st a).2)

theorem wrapAtoms_info (st : BuildSt) :
    ∀ l id, id < 3 * st.k + 2 ∨ ¬ id % 3 = 2 →
      (wrapAtoms st l).2.info id = st.info id := by
  intro l
  induction l generalizing st with
  | nil => intro id _; rfl
  | cons a rest ih =>
      intro id hid
      show (wrapAtoms (wrapAtom st a).2 rest).2.info id = st.info id
      rw [ih (wrapAtom st a).2 id ?_, wrapAtom_info st a id hid]
      rcases hid with hid | hid
      · exact Or.inl (by have := wrapAtom_k st a; omega)
      · exact Or.inr hid

theorem freshVal_infoOK (st : BuildSt) (v : MVal) (h : InfoOK st) :
    InfoOK (freshVal st v).2 := by
  intro id hid
  unfold freshVal
  simp only
  rw [if_neg (by omega)]
  exact h id hid

theorem wrapAtom_infoOK (st : BuildSt) (a : AAtom) (h : InfoOK st) :
    InfoOK (wrapAtom st a).2 := by
  cases a
  · exact h
  · exact h
  · exact freshVal_infoOK st _ h

theorem wrapAtoms_infoOK (st : BuildSt) :
    ∀ l, InfoOK st → InfoOK (wrapAtoms st l).2 := by
  intro l
  induction l generalizing st with
  | nil => intro h; exact h
  | cons a rest ih =>
      intro h
      exact ih (wrapAtom st a).2 (wrapAtom_infoOK st a h)

/-- `wrap` then `to_ast` restores the operand, up to the renaming: any
final per-node data agreeing with the build resolves the wrapped node to
the spec\'s image of the atom. -/
theorem wrapAtom_toAst (st : BuildSt) (hok : InfoOK st) (a : AAtom) :
    ∀ info2, InfoAgree (wrapAtom st a).2 info2 →
      toAst info2 (wrapAtom st a).1 = Except.ok (specAtomAst a) := by
  intro info2 hag
  cases a with
  | loc n =>
      show toAst info2 (3 * n) = Except.ok (specAtomAst (AAtom.loc n))
      have he : info2 (3 * n) = st.info (3 * n) :=
        hag (3 * n) (Or.inr (by omega))
      unfold toAst
      rw [he, if_neg (hok (3 * n) (by omega))]
      rfl
  | glob b =>
      show toAst info2 (3 * bIdx b + 1)
        = Except.ok (specAtomAst (AAtom.glob b))
      have he : info2 (3 * bIdx b + 1) = st.info (3 * bIdx b + 1) :=
        hag _ (Or.inr (by omega))
      unfold toAst
      rw [he, if_neg (hok _ (by omega))]
      rfl
  | lit v =>
      show toAst info2 (3 * st.k + 2) = Except.ok (specAtomAst (AAtom.lit v))
      have he : info2 (3 * st.k + 2) = ⟨NKind.value, some v, true⟩ := by
        rw [hag (3 * st.k + 2) (Or.inl (by
          show 3 * st.k + 2 < 3 * (st.k + 1) + 2
          omega))]
        show (if 3 * st.k + 2 = 3 * st.k + 2
          then (⟨NKind.value, some v, true⟩ : NInfo)
          else st.info (3 * st.k + 2)) = ⟨NKind.value, some v, true⟩
        rw [if_pos rfl]
      unfold toAst
      rw [he]
      cases v <;> rfl

/-- List version of `wrapAtom_toAst`. -/
theorem wrapAtoms_astList (st : BuildSt) :
    ∀ l, InfoOK st →
    ∀ info2, InfoAgree (wrapAtoms st l).2 info2 →
      astList info2 ((wrapAtoms st l).1.map Atom.node)
        = Except.ok (l.map specAtomAst) := by
  intro l
  induction l generalizing st with
  | nil => intro _ info2 _; rfl
  | cons a rest ih =>
      intro hok info2 hag
      have hag1 : InfoAgree (wrapAtom st a).2 info2 := by
        intro id hid
        have hk := wrapAtoms_k (wrapAtom st a).2 rest
        have hcond : id < 3 * (wrapAtoms st (a :: rest)).2.k + 2
            ∨ ¬ id % 3 = 2 := by
          show id < 3 * (wrapAtoms (wrapAtom st a).2 rest).2.k + 2
            ∨ ¬ id % 3 = 2
          rcases hid with hid | hid
          · exact Or.inl (by omega)
          · exact Or.inr hid
        rw [hag id hcond]
        show (wrapAtoms (wrapAtom st a).2 rest).2.info id
          = (wrapAtom st a).2.info id
        exact wrapAtoms_info (wrapAtom st a).2 rest id hid
      have h1 := wrapAtom_toAst st hok a info2 hag1
      have h2 := ih (wrapAtom st a).2 (wrapAtom_infoOK st a hok) info2 hag
      show astList info2 (Atom.node (wrapAtom st a).1 ::
        ((wrapAtoms (wrapAtom st a).2 rest).1.map Atom.node))
        = Except.ok (specAtomAst a :: rest.map specAtomAst)
      unfold astList
      show (match atomAst info2 (Atom.node (wrapAtom st a).1) with
        | Except.error e => Except.error e
        | Except.ok a2 =>
            match astList info2
              ((wrapAtoms (wrapAtom st a).2 rest).1.map Atom.node) with
            | Except.error e => Except.error e
            | Except.ok rest2 => Except.ok (a2 :: rest2)) = _
      show (match toAst info2 (wrapAtom st a).1 with
        | Except.error e => Except.error e
        | Except.ok a2 =>
            match astList info2
              ((wrapAtoms (wrapAtom st a).2 rest).1.map Atom.node) with
            | Except.error e => Except.error e
            | Except.ok rest2 => Except.ok (a2 :: rest2)) = _
      rw [h1, h2]

theorem freshVal_g (st : BuildSt) (v : MVal) : (freshVal st v).2.g = st.g :=
  rfl

/-- Weakening of `InfoAgree` along a build step. -/
theorem infoAgree_step (stA stB : BuildSt) (info2 : Nat → NInfo)
    (hk : stA.k ≤ stB.k)
    (hpres : ∀ id, id < 3 * stA.k + 2 ∨ ¬ id % 3 = 2 →
      stB.info id = stA.info id)
    (hag : InfoAgree stB info2) : InfoAgree stA info2 := by
  intro id hid
  have hcond : id < 3 * stB.k + 2 ∨ ¬ id % 3 = 2 := by
    rcases hid with hid | hid
    · exact Or.inl (by omega)
    · exact Or.inr hid
  rw [hag id hcond, hpres id hid]

theorem installRhs_k (st : BuildSt) (wk : Nat) :
    ∀ rhs, st.k ≤ (installRhs st wk rhs).k := by
  intro rhs
  cases rhs with
  | copy a =>
      show st.k ≤ (wrapAtom st a).2.k + 1
      have := wrapAtom_k st a
      omega
  | app f args =>
      show st.k ≤ (wrapAtom (wrapAtoms st args).2 f).2.k
      exact le_trans (wrapAtoms_k st args)
        (wrapAtom_k (wrapAtoms st args).2 f)
  | clos f args =>
      show st.k ≤ (wrapAtom (wrapAtoms st args).2 f).2.k + 1
      have h1 := wrapAtoms_k st args
      have h2 := wrapAtom_k (wrapAtoms st args).2 f
      omega
  | tup args =>
      show st.k ≤ (wrapAtoms st args).2.k + 1
      have := wrapAtoms_k st args
      omega

theorem installRhs_info (st : BuildSt) (wk : Nat) :
    ∀ rhs id, id < 3 * st.k + 2 ∨ ¬ id % 3 = 2 →
      (installRhs st wk rhs).info id = st.info id := by
  intro rhs id hid
  cases rhs with
  | copy a =>
      show (freshVal (wrapAtom st a).2 (MVal.bsym Builtin.identity)).2.info id
        = st.info id
      rw [freshVal_info _ _ id ?_, wrapAtom_info st a id hid]
      have := wrapAtom_k st a
      rcases hid with hid | hid
      · exact Or.inl (by omega)
      · exact Or.inr hid
  | app f args =>
      show (wrapAtom (wrapAtoms st args).2 f).2.info id = st.info id
      have hk := wrapAtoms_k st args
      rw [wrapAtom_info _ f id ?_, wrapAtoms_info st args id hid]
      rcases hid with hid | hid
      · exact Or.inl (by omega)
      · exact Or.inr hid
  | clos f args =>
      show (freshVal (wrapAtom (wrapAtoms st args).2 f).2
          (MVal.bsym Builtin.partialFn)).2.info id = st.info id
      have hk1 := wrapAtoms_k st args
      have hk2 := wrapAtom_k (wrapAtoms st args).2 f
      rw [freshVal_info _ _ id ?_, wrapAtom_info _ f id ?_,
        wrapAtoms_info st args id hid]
      · rcases hid with hid | hid
        · exact Or.inl (by omega)
        · exact Or.inr hid
      · rcases hid with hid | hid
        · exact Or.inl (by omega)
        · exact Or.inr hid
  | tup args =>
      show (freshVal (wrapAtoms st args).2
          (MVal.bsym Builtin.mktuple)).2.info id = st.info id
      have hk := wrapAtoms_k st args
      rw [freshVal_info _ _ id ?_, wrapAtoms_info st args id hid]
      rcases hid with hid | hid
      · exact Or.inl (by omega)
      · exact Or.inr hid

theorem installRhs_infoOK (st : BuildSt) (wk : Nat) (hok : InfoOK st) :
    ∀ rhs, InfoOK (installRhs st wk rhs) := by
  intro rhs
  cases rhs with
  | copy a =>
      show InfoOK (freshVal (wrapAtom st a).2 (MVal.bsym Builtin.identity)).2
      exact freshVal_infoOK _ _ (wrapAtom_infoOK st a hok)
  | app f args =>
      show InfoOK (wrapAtom (wrapAtoms st args).2 f).2
      exact wrapAtom_infoOK _ f (wrapAtoms_infoOK st args hok)
  | clos f args =>
      show InfoOK (freshVal (wrapAtom (wrapAtoms st args).2 f).2
        (MVal.bsym Builtin.partialFn)).2
      exact freshVal_infoOK _ _
        (wrapAtom_infoOK _ f (wrapAtoms_infoOK st args hok))
  | tup args =>
      show InfoOK (freshVal (wrapAtoms st args).2
        (MVal.bsym Builtin.mktuple)).2
      exact freshVal_infoOK _ _ (wrapAtoms_infoOK st args hok)

theorem installRhs_outEdges_other (st : BuildSt) (wk : Nat) (rhs : ARhs)
    {n : Nat} (hne : ¬ n = wk) :
    (installRhs st wk rhs).g.outEdges n = st.g.outEdges n := by
  cases rhs with
  | copy a =>
      show ((freshVal (wrapAtom st a).2 (MVal.bsym Builtin.identity)).2.g.installApply
        wk _ _).outEdges n = st.g.outEdges n
      rw [outEdges_installApply_other hne, freshVal_g, wrapAtom_g]
  | app f args =>
      show ((wrapAtom (wrapAtoms st args).2 f).2.g.installApply
        wk _ _).outEdges n = st.g.outEdges n
      rw [outEdges_installApply_other hne, wrapAtom_g, wrapAtoms_g]
  | clos f args =>
      show ((freshVal (wrapAtom (wrapAtoms st args).2 f).2
        (MVal.bsym Builtin.partialFn)).2.g.installApply
        wk _ _).outEdges n = st.g.outEdges n
      rw [outEdges_installApply_other hne, freshVal_g, wrapAtom_g,
        wrapAtoms_g]
  | tup args =>
      show ((freshVal (wrapAtoms st args).2
        (MVal.bsym Builtin.mktuple)).2.g.installApply
        wk _ _).outEdges n = st.g.outEdges n
      rw [outEdges_installApply_other hne, freshVal_g, wrapAtoms_g]

/-- Reading back one installed `ApplyOperation` at export: the branch on
the function\'s ast decides the emitted clause form. -/
theorem bindingOf_apply (info2 : Nat → NInfo) (g2 : MGraph Nat)
    (wk fnid : Nat) (argids : List Nat) (aas : List Ast) (fa : Ast)
    (hp : productorM g2 wk = Except.ok (some (COp.apply fnid argids)))
    (hargs : astList info2 (argids.map Atom.node) = Except.ok aas)
    (hfn : toAst info2 fnid = Except.ok fa) :
    bindingOf info2 g2 wk
      = (match fa with
         | Ast.sym Builtin.identity =>
             (match aas with
              | [a] => Except.ok (some (wk, a))
              | _ => Except.error RErr.stuck)
         | Ast.sym Builtin.mktuple => Except.ok (some (wk, Ast.tup aas))
         | Ast.sym Builtin.partialFn =>
             (match aas with
              | f :: rest => Except.ok (some (wk, Ast.clos f rest))
              | [] => Except.error RErr.stuck)
         | _ => Except.ok (some (wk, Ast.app fa aas))) := by
  unfold bindingOf
  simp only [hp, COp.sexp, hargs, atomAst, hfn]
  cases fa <;> try rfl
  case sym b =>
    cases b <;> try rfl
    case identity =>
      cases aas with
      | nil => rfl
      | cons a r => cases r <;> rfl
    case partialFn => cases aas <;> rfl

/-- One installed binding reads back, at any later agreeing state, as the
spec\'s image of its right-hand side. -/
theorem installRhs_bindingOf (st : BuildSt) (hok : InfoOK st) (wk : Nat) :
    ∀ (rhs : ARhs), rhsOK rhs = true →
    ∀ (info2 : Nat → NInfo) (g2 : MGraph Nat),
      InfoAgree (installRhs st wk rhs) info2 →
      g2.outEdges wk = (installRhs st wk rhs).g.outEdges wk →
      bindingOf info2 g2 wk = Except.ok (some (wk, specRhsAst rhs)) := by
  intro rhs hr info2 g2 hag houts
  cases rhs with
  | copy a =>
      have hp : productorM g2 wk = Except.ok (some (COp.apply
          (freshVal (wrapAtom st a).2 (MVal.bsym Builtin.identity)).1
          [(wrapAtom st a).1])) :=
        (productorM_congr houts).trans
          (productor_installApply
            (freshVal (wrapAtom st a).2 (MVal.bsym Builtin.identity)).2.g wk
            (freshVal (wrapAtom st a).2 (MVal.bsym Builtin.identity)).1
            [(wrapAtom st a).1])
      have h1 := hag
        (freshVal (wrapAtom st a).2 (MVal.bsym Builtin.identity)).1
        (Or.inl (by
          show 3 * (wrapAtom st a).2.k + 2
            < 3 * ((wrapAtom st a).2.k + 1) + 2
          omega))
      have h2 : (installRhs st wk (ARhs.copy a)).info
          (freshVal (wrapAtom st a).2 (MVal.bsym Builtin.identity)).1
          = ⟨NKind.value, some (MVal.bsym Builtin.identity), true⟩ := by
        show (if 3 * (wrapAtom st a).2.k + 2 = 3 * (wrapAtom st a).2.k + 2
          then (⟨NKind.value, some (MVal.bsym Builtin.identity), true⟩
            : NInfo)
          else (wrapAtom st a).2.info (3 * (wrapAtom st a).2.k + 2))
          = ⟨NKind.value, some (MVal.bsym Builtin.identity), true⟩
        rw [if_pos rfl]
      have hfn : toAst info2
          (freshVal (wrapAtom st a).2 (MVal.bsym Builtin.identity)).1
          = Except.ok (Ast.sym Builtin.identity) := by
        unfold toAst
        rw [h1, h2]
        rfl
      have hag1 : InfoAgree (wrapAtoms st [a]).2 info2 :=
        infoAgree_step (wrapAtom st a).2 (installRhs st wk (ARhs.copy a))
          info2 (Nat.le_succ _)
          (fun id hid =>
            freshVal_info (wrapAtom st a).2 (MVal.bsym Builtin.identity)
              id hid)
          hag
      have hargs := wrapAtoms_astList st [a] hok info2 hag1
      rw [bindingOf_apply info2 g2 wk _ _ _ _ hp hargs hfn]
      rfl
  | app f args =>
      have hag1 : InfoAgree (wrapAtom (wrapAtoms st args).2 f).2 info2 := hag
      have hfn := wrapAtom_toAst (wrapAtoms st args).2
        (wrapAtoms_infoOK st args hok) f info2 hag1
      have hag2 : InfoAgree (wrapAtoms st args).2 info2 :=
        infoAgree_step (wrapAtoms st args).2
          (wrapAtom (wrapAtoms st args).2 f).2 info2
          (wrapAtom_k (wrapAtoms st args).2 f)
          (fun id hid => wrapAtom_info (wrapAtoms st args).2 f id hid)
          hag1
      have hargs := wrapAtoms_astList st args hok info2 hag2
      have hp : productorM g2 wk = Except.ok (some (COp.apply
          (wrapAtom (wrapAtoms st args).2 f).1 (wrapAtoms st args).1)) :=
        (productorM_congr houts).trans
          (productor_installApply (wrapAtom (wrapAtoms st args).2 f).2.g wk
            (wrapAtom (wrapAtoms st args).2 f).1 (wrapAtoms st args).1)
      rw [bindingOf_apply info2 g2 wk _ _ _ _ hp hargs hfn]
      cases f with
      | loc n => rfl
      | glob b => rfl
      | lit v => simp [rhsOK, fnOK] at hr
  | clos f args =>
      have hag2 : InfoAgree (wrapAtom (wrapAtoms st args).2 f).2 info2 :=
        infoAgree_step (wrapAtom (wrapAtoms st args).2 f).2
          (installRhs st wk (ARhs.clos f args)) info2 (Nat.le_succ _)
          (fun id hid =>
            freshVal_info (wrapAtom (wrapAtoms st args).2 f).2
              (MVal.bsym Builtin.partialFn) id hid)
          hag
      have hfnAst := wrapAtom_toAst (wrapAtoms st args).2
        (wrapAtoms_infoOK st args hok) f info2 hag2
      have hag1 : InfoAgree (wrapAtoms st args).2 info2 :=
        infoAgree_step (wrapAtoms st args).2
          (wrapAtom (wrapAtoms st args).2 f).2 info2
          (wrapAtom_k (wrapAtoms st args).2 f)
          (fun id hid => wrapAtom_info (wrapAtoms st args).2 f id hid)
          hag2
      have hargsTail := wrapAtoms_astList st args hok info2 hag1
      have hargs : astList info2
          (((wrapAtom (wrapAtoms st args).2 f).1
            :: (wrapAtoms st args).1).map Atom.node)
          = Except.ok (specAtomAst f :: args.map specAtomAst) := by
        show (match toAst info2 (wrapAtom (wrapAtoms st args).2 f).1 with
          | Except.error e => Except.error e
          | Except.ok a2 =>
              match astList info2 ((wrapAtoms st args).1.map Atom.node) with
              | Except.error e => Except.error e
              | Except.ok rest2 => Except.ok (a2 :: rest2)) = _
        rw [hfnAst, hargsTail]
      have h1 := hag
        (freshVal (wrapAtom (wrapAtoms st args).2 f).2
          (MVal.bsym Builtin.partialFn)).1
        (Or.inl (by
          show 3 * (wrapAtom (wrapAtoms st args).2 f).2.k + 2
            < 3 * ((wrapAtom (wrapAtoms st args).2 f).2.k + 1) + 2
          omega))
      have h2 : (installRhs st wk (ARhs.clos f args)).info
          (freshVal (wrapAtom (wrapAtoms st args).2 f).2
            (MVal.bsym Builtin.partialFn)).1
          = ⟨NKind.value, some (MVal.bsym Builtin.partialFn), true⟩ := by
        show (if 3 * (wrapAtom (wrapAtoms st args).2 f).2.k + 2
            = 3 * (wrapAtom (wrapAtoms st args).2 f).2.k + 2
          then (⟨NKind.value, some (MVal.bsym Builtin.partialFn), true⟩
            : NInfo)
          else (wrapAtom (wrapAtoms st args).2 f).2.info
            (3 * (wrapAtom (wrapAtoms st args).2 f).2.k + 2))
          = ⟨NKind.value, some (MVal.bsym Builtin.partialFn), true⟩
        rw [if_pos rfl]
      have hfn : toAst info2
          (freshVal (wrapAtom (wrapAtoms st args).2 f).2
            (MVal.bsym Builtin.partialFn)).1
          = Except.ok (Ast.sym Builtin.partialFn) := by
        unfold toAst
        rw [h1, h2]
        rfl
      have hp : productorM g2 wk = Except.ok (some (COp.apply
          (freshVal (wrapAtom (wrapAtoms st args).2 f).2
            (MVal.bsym Builtin.partialFn)).1
          ((wrapAtom (wrapAtoms st args).2 f).1
            :: (wrapAtoms st args).1))) :=
        (productorM_congr houts).trans
          (productor_installApply
            (freshVal (wrapAtom (wrapAtoms st args).2 f).2
              (MVal.bsym Builtin.partialFn)).2.g wk
            (freshVal (wrapAtom (wrapAtoms st args).2 f).2
              (MVal.bsym Builtin.partialFn)).1
            ((wrapAtom (wrapAtoms st args).2 f).1
              :: (wrapAtoms st args).1))
      rw [bindingOf_apply info2 g2 wk _ _ _ _ hp hargs hfn]
      rfl
  | tup args =>
      have h1 := hag
        (freshVal (wrapAtoms st args).2 (MVal.bsym Builtin.mktuple)).1
        (Or.inl (by
          show 3 * (wrapAtoms st args).2.k + 2
            < 3 * ((wrapAtoms st args).2.k + 1) + 2
          omega))
      have h2 : (installRhs st wk (ARhs.tup args)).info
          (freshVal (wrapAtoms st args).2 (MVal.bsym Builtin.mktuple)).1
          = ⟨NKind.value, some (MVal.bsym Builtin.mktuple), true⟩ := by
        show (if 3 * (wrapAtoms st args).2.k + 2
            = 3 * (wrapAtoms st args).2.k + 2
          then (⟨NKind.value, some (MVal.bsym Builtin.mktuple), true⟩
            : NInfo)
          else (wrapAtoms st args).2.info
            (3 * (wrapAtoms st args).2.k + 2))
          = ⟨NKind.value, some (MVal.bsym Builtin.mktuple), true⟩
        rw [if_pos rfl]
      have hfn : toAst info2
          (freshVal (wrapAtoms st args).2 (MVal.bsym Builtin.mktuple)).1
          = Except.ok (Ast.sym Builtin.mktuple) := by
        unfold toAst
        rw [h1, h2]
        rfl
      have hag1 : InfoAgree (wrapAtoms st args).2 info2 :=
        infoAgree_step (wrapAtoms st args).2
          (installRhs st wk (ARhs.tup args)) info2 (Nat.le_succ _)
          (fun id hid =>
            freshVal_info (wrapAtoms st args).2 (MVal.bsym Builtin.mktuple)
              id hid)
          hag
      have hargs := wrapAtoms_astList st args hok info2 hag1
      have hp : productorM g2 wk = Except.ok (some (COp.apply
          (freshVal (wrapAtoms st args).2 (MVal.bsym Builtin.mktuple)).1
          (wrapAtoms st args).1)) :=
        (productorM_congr houts).trans
          (productor_installApply
            (freshVal (wrapAtoms st args).2
              (MVal.bsym Builtin.mktuple)).2.g wk
            (freshVal (wrapAtoms st args).2 (MVal.bsym Builtin.mktuple)).1
            (wrapAtoms st args).1)
      rw [bindingOf_apply info2 g2 wk _ _ _ _ hp hargs hfn]
      rfl

/-- Invariants of the whole binding walk: the allocator only moves
forward, already-fixed node data survives, untouched nodes keep their
producer edges, and every bound node reads back as the spec\'s image of
its right-hand side. -/
theorem buildBinds_main :
    ∀ (binds : List (Nat × ARhs)) (st : BuildSt),
      (binds.map Prod.fst).Nodup →
      (∀ b ∈ binds, rhsOK b.2 = true) →
      InfoOK st →
      st.k ≤ (buildBinds st binds).k
      ∧ (∀ id, id < 3 * st.k + 2 ∨ ¬ id % 3 = 2 →
          (buildBinds st binds).info id = st.info id)
      ∧ (∀ n, (∀ b ∈ binds, ¬ n = 3 * b.1) →
          (buildBinds st binds).g.outEdges n = st.g.outEdges n)
      ∧ (∀ b ∈ binds, bindingOf (buildBinds st binds).info
          (buildBinds st binds).g (3 * b.1)
          = Except.ok (some (3 * b.1, specRhsAst b.2))) := by
  intro binds
  induction binds with
  | nil =>
      intro st _ _ _
      exact ⟨le_refl _, fun id _ => rfl, fun n _ => rfl,
        fun b hb => absurd hb (List.not_mem_nil b)⟩
  | cons b0 rest ih =>
      intro st hnd hok hinfo
      obtain ⟨k0, rhs0⟩ := b0
      have hstep : buildBinds st ((k0, rhs0) :: rest)
          = buildBinds (installRhs st (3 * k0) rhs0) rest := rfl
      have hok0 : rhsOK rhs0 = true := hok _ (List.mem_cons_self _ _)
      have hndc : ((k0 : Nat) :: rest.map Prod.fst).Nodup := hnd
      have hk0 : (k0 : Nat) ∉ rest.map Prod.fst := (List.nodup_cons.1 hndc).1
      rcases ih (installRhs st (3 * k0) rhs0) (List.nodup_cons.1 hndc).2
        (fun b hb => hok b (List.mem_cons_of_mem _ hb))
        (installRhs_infoOK st (3 * k0) hinfo rhs0) with
        ⟨ihk, ihinfo, ihout, ihbind⟩
      rw [hstep]
      have hne : ∀ b ∈ rest, ¬ (3 * k0 : Nat) = 3 * b.1 := by
        intro b hb hEq
        have hkb : k0 = b.1 := by omega
        exact hk0 (hkb ▸ List.mem_map_of_mem Prod.fst hb)
      refine ⟨le_trans (installRhs_k st (3 * k0) rhs0) ihk, ?_, ?_, ?_⟩
      · intro id hid
        have hik := installRhs_k st (3 * k0) rhs0
        have hcond : id < 3 * (installRhs st (3 * k0) rhs0).k + 2
            ∨ ¬ id % 3 = 2 := by
          rcases hid with hid | hid
          · exact Or.inl (by omega)
          · exact Or.inr hid
        rw [ihinfo id hcond, installRhs_info st (3 * k0) rhs0 id hid]
      · intro n hnot
        rw [ihout n (fun b hb => hnot b (List.mem_cons_of_mem _ hb)),
          installRhs_outEdges_other st (3 * k0) rhs0
            (hnot (k0, rhs0) (List.mem_cons_self _ _))]
      · intro b hb
        rcases List.mem_cons.1 hb with heq | hb
        · subst heq
          exact installRhs_bindingOf st hinfo (3 * k0) rhs0 hok0
            (buildBinds (installRhs st (3 * k0) rhs0) rest).info
            (buildBinds (installRhs st (3 * k0) rhs0) rest).g
            (fun id hid => ihinfo id hid) (ihout (3 * k0) hne)
        · exact ihbind b hb

/-- The export loop over nodes that each yield exactly their own
binding. -/
theorem transformBindings_map (info : Nat → NInfo) (g : MGraph Nat) :
    ∀ (ps : List (Nat × Ast)) (acc : List (Nat × Ast)),
      (∀ p ∈ ps, ¬ (info p.1).kind = NKind.lam
        ∧ bindingOf info g p.1 = Except.ok (some p)) →
      transformBindings info g (ps.map Prod.fst) acc
        = Except.ok (acc ++ ps) := by
  intro ps
  induction ps with
  | nil => intro acc _; simp [transformBindings]
  | cons p rest ih =>
      intro acc hall
      have h1 := hall p (List.mem_cons_self _ _)
      show transformBindings info g (p.1 :: rest.map Prod.fst) acc = _
      have hstep : transformBindings info g (p.1 :: rest.map Prod.fst) acc
          = transformBindings info g (rest.map Prod.fst) (acc ++ [p]) := by
        conv_lhs => rw [transformBindings]
        rw [if_neg h1.1, h1.2]
      rw [hstep,
        ih (acc ++ [p]) (fun q hq => hall q (List.mem_cons_of_mem _ hq)),
        List.append_assoc]
      rfl

/-- C1: the round trip `export(acquire(x))` on a plain-name ANF input —
distinct bound names, function positions that are neither literals nor
the reserved desugaring builtins — returns the input itself up to the
node-id renaming: the same parameters, the same bindings in the same
order with each right-hand side of the same grammatical shape over
renamed operands, and the same returned name.  The export order used is
the bound nodes in reverse binding order, a topological order of the
built dependency graph (producer-less input/value nodes emit no binding,
so their position is immaterial). -/
theorem roundtrip_shape (a : Anf)
    (h1 : (a.binds.map Prod.fst).Nodup)
    (h2 : ∀ b ∈ a.binds, rhsOK b.2 = true) :
    transform (acquire a).info (acquireLam a)
        ((a.binds.map (fun b => 3 * b.1)).reverse)
      = Except.ok ⟨a.params.map (fun n => 3 * n),
          a.binds.map (fun b => (3 * b.1, specRhsAst b.2)), 3 * a.ret⟩ := by
  have hok0 : InfoOK ⟨⟨[]⟩, info0 a, 0⟩ := by
    intro id hid
    show ¬ (info0 a id).kind = NKind.value
    unfold info0
    by_cases hz : id % 3 = 0
    · rw [if_pos hz]
      by_cases hm : id / 3 ∈ a.params
      · rw [if_pos hm]
        intro hc
        cases hc
      · rw [if_neg hm]
        intro hc
        cases hc
    · rw [if_neg hz]
      rw [if_pos (by omega : id % 3 = 1)]
      intro hc
      cases hc
  rcases buildBinds_main a.binds ⟨⟨[]⟩, info0 a, 0⟩ h1 h2 hok0 with
    ⟨_, hinfo, _, hbind⟩
  have hall : ∀ p ∈ (a.binds.map
        (fun b => ((3 * b.1 : Nat), specRhsAst b.2))).reverse,
      ¬ ((acquire a).info p.1).kind = NKind.lam
      ∧ bindingOf (acquire a).info (acquire a).g p.1
          = Except.ok (some p) := by
    intro p hp
    rw [List.mem_reverse] at hp
    rcases List.mem_map.1 hp with ⟨b, hb, rfl⟩
    constructor
    · have hc2 : ¬ (3 * b.1) % 3 = 2 := by omega
      have he : (acquire a).info (3 * b.1) = info0 a (3 * b.1) :=
        hinfo (3 * b.1) (Or.inr hc2)
      show ¬ ((acquire a).info (3 * b.1)).kind = NKind.lam
      rw [he]
      unfold info0
      rw [if_pos (by omega : (3 * b.1) % 3 = 0)]
      by_cases hm : (3 * b.1) / 3 ∈ a.params
      · rw [if_pos hm]
        intro hc
        cases hc
      · rw [if_neg hm]
        intro hc
        cases hc
    · exact hbind b hb
  have hmain := transformBindings_map (acquire a).info (acquire a).g
    ((a.binds.map (fun b => ((3 * b.1 : Nat), specRhsAst b.2))).reverse)
    [] hall
  have hfst : ((a.binds.map
        (fun b => ((3 * b.1 : Nat), specRhsAst b.2))).reverse).map Prod.fst
      = (a.binds.map (fun b => 3 * b.1)).reverse := by
    rw [List.map_reverse, List.map_map]
    rfl
  rw [hfst] at hmain
  show (match transformBindings (acquire a).info (acquire a).g
      ((a.binds.map (fun b => 3 * b.1)).reverse) [] with
    | Except.error e => Except.error e
    | Except.ok bs =>
        Except.ok (⟨a.params.map (fun n => 3 * n), bs.reverse,
          3 * a.ret⟩ : AnfLam)) = _
  rw [hmain]
  simp

/-- C1 witness ANF input: `f(x) := let a = add(x, 2); let b = a in b`. -/
def aW : Anf :=
  ⟨[1],
   [(5, ARhs.app (AAtom.glob Builtin.add) [AAtom.loc 1,
      AAtom.lit (MVal.num 2)]),
    (6, ARhs.copy (AAtom.loc 5))],
   6⟩

/-- C1 witness: the two-binding input round-trips to itself under the
`3n` renaming. -/
theorem roundtrip_shape_witness :
    transform (acquire aW).info (acquireLam aW)
        ((aW.binds.map (fun b => 3 * b.1)).reverse)
      = Except.ok ⟨aW.params.map (fun n => 3 * n),
          aW.binds.map (fun b => (3 * b.1, specRhsAst b.2)), 3 * aW.ret⟩ :=
  roundtrip_shape aW (by decide) (by decide)

end Myia
